import Mathlib

/-!
Verification development for the code-graph extractor and incremental sync
engine of `pfc-agents` (`src/tools/code_graph_extractor/extractor.py` and
`src/servers/code_graph.py`).

Shallow embedding conventions:
* Python strings are `List Char` (`Str`).  Raw file bytes and decoded text are
  identified (UTF-8 round-trip); the three-encoding decode loop of
  `extract_from_file` is modelled by a per-file `decodable` flag.
* `hashlib.md5` is modelled as an injective digest (the identity on the
  content); no claim depends on hash collisions.
* Python exceptions that escape a function are modelled with `Except Str`;
  `Except.error` is a raised exception crossing that boundary.
* The regular-expression engine (`re.finditer`) is kept abstract: a `Matcher`
  supplies, for each pattern table entry, the list of matches
  (start offset and capture groups) on a given content.  All theorems about
  the extractors hold for every matcher, hence for the real regex engine.
* SQLite tables are lists of rows; `INSERT .. ON CONFLICT DO UPDATE` replaces
  the matching row in place, `INSERT OR IGNORE` keeps the first row, `DELETE`
  filters, and `LIKE` is the SQLite matcher (ASCII-case-insensitive, with
  `%`/`_` wildcards, no ESCAPE clause).
-/

/-- Python strings (and raw file bytes) as lists of characters. -/
abbrev Str := List Char

/-- Coerce a Lean string literal to the `Str` representation. -/
def chars (s : String) : Str := s.data

/-- SQLite `LIKE` pattern matching: `%` matches any sequence, `_` any single
character, and ordinary characters compare ASCII-case-insensitively
(SQLite's default `like(B,A)` semantics, no ESCAPE clause). -/
def likeMatch : Str → Str → Bool
  | [], s => s.isEmpty
  | p :: ps, s =>
    if p = '%' then (s.tails).any (fun t => likeMatch ps t)
    else
      match s with
      | [] => false
      | c :: t =>
        if p = '_' then likeMatch ps t
        else (p.toLower == c.toLower) && likeMatch ps t

/-- `hashlib.md5(...).hexdigest()` modelled as an injective digest of the
content: collisions are ignored, so the digest is the content itself. -/
def md5 (s : Str) : Str := s

/-- `make_node_id` (extractor.py:123): format `{kind}.{file_path}[:{name}]`. -/
def make_node_id (kind file_path : Str) (name : Option Str) : Str :=
  let base := kind ++ '.' :: file_path
  match name with
  | some n => base ++ ':' :: n
  | none => base

/-- Bool test: `needle` occurs as a contiguous substring of `hay`. -/
def containsSub (needle hay : Str) : Bool :=
  (hay.tails).any (fun t => needle.isPrefixOf t)

/-- `os.path.basename`: the part of a POSIX path after the last `/`. -/
def basename (p : Str) : Str :=
  (p.reverse.takeWhile (fun c => c ≠ '/')).reverse

/-- `os.path.splitext(p)[1]`: the extension of the basename, starting at its
last dot; leading dots of the basename never start an extension. -/
def extOf (p : Str) : Str :=
  let base := basename p
  let afterLead := base.dropWhile (fun c => c = '.')
  if afterLead.contains '.' then
    '.' :: (afterLead.reverse.takeWhile (fun c => c ≠ '.')).reverse
  else []

/-- The language tags of `SUPPORTED_EXTENSIONS` (extractor.py:88). -/
inductive Lang
  | typescript
  | javascript
  | python
  | go
deriving DecidableEq, Repr

/-- `SUPPORTED_EXTENSIONS.get(ext)` (extractor.py:88) on a lowercased
extension string. -/
def langOfExt (ext : Str) : Option Lang :=
  if ext = chars ".ts" then some .typescript
  else if ext = chars ".tsx" then some .typescript
  else if ext = chars ".js" then some .javascript
  else if ext = chars ".jsx" then some .javascript
  else if ext = chars ".py" then some .python
  else if ext = chars ".go" then some .go
  else none

/-- `detect_language` (extractor.py:138): lowercased extension lookup in
`SUPPORTED_EXTENSIONS`. -/
def detect_language (p : Str) : Option Lang :=
  langOfExt ((extOf p).map Char.toLower)

/-- Python `str.strip()` whitespace set (the ASCII part that matters here). -/
def isPySpace (c : Char) : Bool :=
  c = ' ' || c = '\t' || c = '\n' || c = '\r' || c = '\x0b' || c = '\x0c'

/-- Python `str.strip()`. -/
def strip (s : Str) : Str :=
  ((s.dropWhile isPySpace).reverse.dropWhile isPySpace).reverse

/-- Helper for `splitWs`: accumulates the current token (reversed). -/
def splitWsAux : Str → Str → List Str
  | [], acc => if acc.isEmpty then [] else [acc.reverse]
  | c :: t, acc =>
    if isPySpace c then
      if acc.isEmpty then splitWsAux t [] else acc.reverse :: splitWsAux t []
    else splitWsAux t (c :: acc)

/-- Python `str.split()` with no argument: split on whitespace runs,
dropping empty tokens. -/
def splitWs (s : Str) : List Str := splitWsAux s []

/-- Helper for `splitOnChar`: accumulates the current piece (reversed). -/
def splitOnCharAux (sep : Char) : Str → Str → List Str
  | [], acc => [acc.reverse]
  | c :: t, acc =>
    if c = sep then acc.reverse :: splitOnCharAux sep t []
    else splitOnCharAux sep t (c :: acc)

/-- Python `str.split(sep)` for a single-character separator: keeps empty
pieces, `"".split(sep) = [""]`. -/
def splitOnChar (sep : Char) (s : Str) : List Str := splitOnCharAux sep s []

/-- `content[:start].count('\n') + 1`: the 1-based line of byte offset
`start` in `content`. -/
def lineOf (content : Str) (start : Nat) : Nat :=
  (content.take start).count '\n' + 1

/-- `CodeNode` dataclass (extractor.py:25).  `to_dict` is the identity in
this model, so walk results carry `CodeNode` values directly. -/
structure CodeNode where
  id : Str
  kind : Str
  name : Str
  file_path : Str
  line_start : Nat := 0
  line_end : Nat := 0
  signature : Option Str := none
  language : Option Str := none
  visibility : Option Str := none
  hash : Option Str := none
deriving DecidableEq, Repr

/-- `CodeEdge` dataclass (extractor.py:54); `confidence` is an exact
rational (0.8 and 1.0 are exactly representable as floats, so nothing is
lost). -/
structure CodeEdge where
  from_id : Str
  to_id : Str
  kind : Str
  line_number : Option Nat := none
  confidence : Rat := 1
deriving DecidableEq, Repr

/-- `ExtractionResult` dataclass (extractor.py:73). -/
structure ExtractionResult where
  nodes : List CodeNode := []
  edges : List CodeEdge := []
  file_path : Str := []
  file_hash : Str := []
  language : Str := []
  errors : List Str := []
deriving DecidableEq, Repr

instance : Inhabited ExtractionResult := ⟨{}⟩

/-- Abstract interface to `re.finditer` over the pattern tables
`RegexExtractor.TS_PATTERNS` / `PY_PATTERNS` (extractor.py:156/196).
For each pattern, the matcher returns the list of matches on a content:
`match.start()` plus the capture groups the source reads.  The extractors
are proved correct for every matcher, hence for the real regex engine. -/
structure Matcher where
  /-- TS `import` pattern: `(start, group 1 = import path)`. -/
  tsImport : Str → List (Nat × Str)
  /-- TS `export_function` pattern: `(start, group 1 = name)`. -/
  tsExportFunction : Str → List (Nat × Str)
  /-- TS `export_const_arrow` pattern: `(start, group 1 = name)`. -/
  tsExportConstArrow : Str → List (Nat × Str)
  /-- TS `class` pattern: `(start, name, extends clause, implements clause)`. -/
  tsClass : Str → List (Nat × Str × Option Str × Option Str)
  /-- TS `interface` pattern: `(start, name, extends clause)`. -/
  tsInterface : Str → List (Nat × Str × Option Str)
  /-- TS `type` pattern: `(start, group 1 = name)`. -/
  tsType : Str → List (Nat × Str)
  /-- PY `import` pattern: `(start, group 1 = from-module, group 2 = imports)`. -/
  pyImport : Str → List (Nat × Option Str × Str)
  /-- PY `function` pattern: `(start, group 1 = name)`. -/
  pyFunction : Str → List (Nat × Str)
  /-- PY `class` pattern: `(start, name, group 2 = base list)`. -/
  pyClass : Str → List (Nat × Str × Option Str)
  /-- PY `const` pattern: `(start, group 1 = name)`. -/
  pyConst : Str → List (Nat × Str)

/-- Character scan of one line for `_find_block_end`: returns `none` when the
`return i + 1` fires (a `}` closes the block after braces started), otherwise
the updated `(brace_count, started)` state. -/
def scanBraces : Str → Int → Bool → Option (Int × Bool)
  | [], bc, st => some (bc, st)
  | c :: t, bc, st =>
    if c = '{' then scanBraces t (bc + 1) true
    else if c = '}' then
      if st ∧ bc - 1 = 0 then none else scanBraces t (bc - 1) st
    else scanBraces t bc st

/-- Line loop of `_find_block_end` (extractor.py:519), starting at index `i`
over the remaining lines; `total` is `len(lines)`. -/
def findBlockEndFrom : List Str → Nat → Int → Bool → Nat → Nat
  | [], _, _, _, total => total
  | l :: rest, i, bc, st, total =>
    match scanBraces l bc st with
    | none => i + 1
    | some (bc2, st2) => findBlockEndFrom rest (i + 1) bc2 st2 total

/-- `RegexExtractor._find_block_end`: balanced-brace scan from `start_line`
(0-based); returns a 1-based line, or `len(lines)` if braces never close. -/
def find_block_end (lines : List Str) (start_line : Nat) : Nat :=
  findBlockEndFrom (lines.drop start_line) start_line 0 false lines.length

/-- `len(line) - len(line.lstrip())`: the leading-whitespace width. -/
def indentOf (l : Str) : Nat :=
  l.length - (l.dropWhile isPySpace).length

/-- Line loop of `_find_python_block_end` (extractor.py:537) over the lines
after the declaration, starting at index `i`; `si` is the declaration's
indentation, `total` is `len(lines)`. -/
def findPyEndFrom : List Str → Nat → Nat → Nat → Nat
  | [], _, _, total => total
  | l :: rest, i, si, total =>
    let stripped := strip l
    if stripped.isEmpty then findPyEndFrom rest (i + 1) si total
    else if stripped.headI = '#' then findPyEndFrom rest (i + 1) si total
    else if indentOf l ≤ si then i
    else findPyEndFrom rest (i + 1) si total

/-- `RegexExtractor._find_python_block_end`: indentation scan forward until a
non-blank, non-comment line at or below the declaration's indentation. -/
def find_python_block_end (lines : List Str) (start_line : Nat) : Nat :=
  if lines.length ≤ start_line then start_line + 1
  else
    findPyEndFrom (lines.drop (start_line + 1)) (start_line + 1)
      (indentOf (lines.getD start_line [])) lines.length

/-- `RegexExtractor.extract_typescript` (extractor.py:215), with the regex
matches supplied by `m`.  Nodes and edges are accumulated in the source's
loop order. -/
def extract_typescript (m : Matcher) (content file_path : Str) :
    ExtractionResult :=
  let file_hash := md5 content
  let file_node : CodeNode :=
    { id := make_node_id (chars "file") file_path none
      kind := chars "file"
      name := basename file_path
      file_path := file_path
      language := some (chars "typescript")
      hash := some file_hash }
  let lines := splitOnChar '\n' content
  let importEdges : List CodeEdge :=
    (m.tsImport content).map (fun x =>
      { from_id := file_node.id
        to_id := chars "module." ++ x.2
        kind := chars "imports"
        line_number := some (lineOf content x.1) })
  let exportFnNodes : List CodeNode :=
    (m.tsExportFunction content).map (fun x =>
      let line_num := lineOf content x.1
      { id := make_node_id (chars "function") file_path (some x.2)
        kind := chars "function"
        name := x.2
        file_path := file_path
        line_start := line_num
        line_end := find_block_end lines (line_num - 1)
        visibility := some (chars "public")
        language := some (chars "typescript") })
  let arrowFnNodes : List CodeNode :=
    (m.tsExportConstArrow content).map (fun x =>
      let line_num := lineOf content x.1
      { id := make_node_id (chars "function") file_path (some x.2)
        kind := chars "function"
        name := x.2
        file_path := file_path
        line_start := line_num
        line_end := find_block_end lines (line_num - 1)
        visibility := some (chars "public")
        language := some (chars "typescript") })
  let classNodes : List CodeNode :=
    (m.tsClass content).map (fun x =>
      let line_num := lineOf content x.1
      { id := make_node_id (chars "class") file_path (some x.2.1)
        kind := chars "class"
        name := x.2.1
        file_path := file_path
        line_start := line_num
        line_end := find_block_end lines (line_num - 1)
        visibility := some (chars "public")
        language := some (chars "typescript") })
  let classEdges : List CodeEdge :=
    (m.tsClass content).flatMap (fun x =>
      let line_num := lineOf content x.1
      let class_id := make_node_id (chars "class") file_path (some x.2.1)
      let definesEdge : CodeEdge :=
        { from_id := file_node.id, to_id := class_id, kind := chars "defines" }
      let extendsEdges : List CodeEdge :=
        match x.2.2.1 with
        | some ext =>
          [{ from_id := class_id
             to_id := chars "class." ++ ext
             kind := chars "extends"
             line_number := some line_num
             confidence := 8/10 }]
        | none => []
      let implementsEdges : List CodeEdge :=
        match x.2.2.2 with
        | some impl =>
          (splitOnChar ',' impl).filterMap (fun raw =>
            let iface := strip raw
            if iface.isEmpty then none
            else some
              { from_id := class_id
                to_id := chars "interface." ++ iface
                kind := chars "implements"
                line_number := some line_num
                confidence := 8/10 })
        | none => []
      definesEdge :: (extendsEdges ++ implementsEdges))
  let ifaceNodes : List CodeNode :=
    (m.tsInterface content).map (fun x =>
      let line_num := lineOf content x.1
      { id := make_node_id (chars "interface") file_path (some x.2.1)
        kind := chars "interface"
        name := x.2.1
        file_path := file_path
        line_start := line_num
        line_end := find_block_end lines (line_num - 1)
        language := some (chars "typescript") })
  let typeNodes : List CodeNode :=
    (m.tsType content).map (fun x =>
      let line_num := lineOf content x.1
      { id := make_node_id (chars "type") file_path (some x.2)
        kind := chars "type"
        name := x.2
        file_path := file_path
        line_start := line_num
        line_end := line_num
        language := some (chars "typescript") })
  let definesOf : List CodeNode → List CodeEdge := fun ns =>
    ns.map (fun n =>
      { from_id := file_node.id, to_id := n.id, kind := chars "defines" })
  { nodes := file_node ::
      (exportFnNodes ++ arrowFnNodes ++ classNodes ++ ifaceNodes ++ typeNodes)
    edges := importEdges ++ definesOf exportFnNodes ++ definesOf arrowFnNodes
      ++ classEdges ++ definesOf ifaceNodes ++ definesOf typeNodes
    file_path := file_path
    file_hash := file_hash
    language := chars "typescript" }

/-- The import-target computation of `extract_python` (extractor.py:421):
`module.{from_module}` when `from_module` is truthy, otherwise
`module.{imports.split(',')[0].strip().split()[0]}`.  The final `[0]` raises
`IndexError` when the first comma-segment strips to whitespace only (e.g. the
line `import ,x`), which is modelled by `Except.error`. -/
def pyImportTarget (from_module : Option Str) (imports : Str) :
    Except Str Str :=
  let fm := from_module.getD []
  if fm.isEmpty then
    match splitWs (strip ((splitOnChar ',' imports).headD [])) with
    | [] => Except.error (chars "IndexError: list index out of range")
    | tok :: _ => Except.ok (chars "module." ++ tok)
  else Except.ok (chars "module." ++ fm)

/-- The import loop of `extract_python` (extractor.py:416): one `imports`
edge per match from the file node, raising `IndexError` past the loop when
the import target cannot be computed. -/
def pyImportEdges (fromId content : Str) :
    List (Nat × Option Str × Str) → Except Str (List CodeEdge)
  | [] => Except.ok []
  | x :: t => do
    let target ← pyImportTarget x.2.1 x.2.2
    let rest ← pyImportEdges fromId content t
    pure
      (({ from_id := fromId
          to_id := target
          kind := chars "imports"
          line_number := some (lineOf content x.1) } : CodeEdge) :: rest)

/-- The result record built by `extract_python` once the import edges are
known (extractor.py:393). -/
def extract_python_pure (m : Matcher) (content file_path : Str)
    (importEdges : List CodeEdge) : ExtractionResult :=
  let file_hash := md5 content
  let file_node : CodeNode :=
    { id := make_node_id (chars "file") file_path none
      kind := chars "file"
      name := basename file_path
      file_path := file_path
      language := some (chars "python")
      hash := some file_hash }
  let lines := splitOnChar '\n' content
  let fnNodes : List CodeNode :=
    (m.pyFunction content).map (fun x =>
      let line_num := lineOf content x.1
      let visibility := if x.2.headI = '_' then chars "private" else chars "public"
      { id := make_node_id (chars "function") file_path (some x.2)
        kind := chars "function"
        name := x.2
        file_path := file_path
        line_start := line_num
        line_end := find_python_block_end lines (line_num - 1)
        visibility := some visibility
        language := some (chars "python") })
  let classNodes : List CodeNode :=
    (m.pyClass content).map (fun x =>
      let line_num := lineOf content x.1
      { id := make_node_id (chars "class") file_path (some x.2.1)
        kind := chars "class"
        name := x.2.1
        file_path := file_path
        line_start := line_num
        line_end := find_python_block_end lines (line_num - 1)
        language := some (chars "python") })
  let classEdges : List CodeEdge :=
    (m.pyClass content).flatMap (fun x =>
      let line_num := lineOf content x.1
      let class_id := make_node_id (chars "class") file_path (some x.2.1)
      let definesEdge : CodeEdge :=
        { from_id := file_node.id, to_id := class_id, kind := chars "defines" }
      let extendsEdges : List CodeEdge :=
        match x.2.2 with
        | some bases =>
          (splitOnChar ',' bases).filterMap (fun raw =>
            let base := strip raw
            if base.isEmpty ∨ base = chars "object" then none
            else some
              { from_id := class_id
                to_id := chars "class." ++ base
                kind := chars "extends"
                line_number := some line_num
                confidence := 8/10 })
        | none => []
      definesEdge :: extendsEdges)
  let constNodes : List CodeNode :=
    (m.pyConst content).map (fun x =>
      let line_num := lineOf content x.1
      { id := make_node_id (chars "constant") file_path (some x.2)
        kind := chars "constant"
        name := x.2
        file_path := file_path
        line_start := line_num
        line_end := line_num
        language := some (chars "python") })
  let definesOf : List CodeNode → List CodeEdge := fun ns =>
    ns.map (fun n =>
      { from_id := file_node.id, to_id := n.id, kind := chars "defines" })
  { nodes := file_node :: (fnNodes ++ classNodes ++ constNodes)
    edges := importEdges ++ definesOf fnNodes ++ classEdges
      ++ definesOf constNodes
    file_path := file_path
    file_hash := file_hash
    language := chars "python" }

/-- `RegexExtractor.extract_python` (extractor.py:393).  The import loop can
raise `IndexError` (see `pyImportTarget`); everything else is total. -/
def extract_python (m : Matcher) (content file_path : Str) :
    Except Str ExtractionResult := do
  let importEdges ← pyImportEdges
    (make_node_id (chars "file") file_path none) content (m.pyImport content)
  pure (extract_python_pure m content file_path importEdges)

/-- A source file in the modelled filesystem.  `content` is the raw bytes,
identified with the decoded text when `decodable` holds; `decodable = false`
models the `content is None` outcome of the three-encoding decode loop — a
branch the source keeps but that is dead in reality, since the `latin-1`
fallback decodes every byte string, so no real file has
`decodable = false`; `readable = false` makes `open` raise;
`fsExists = false` makes `os.path.exists` false. -/
structure SrcFile where
  relPath : Str
  content : Str
  fsExists : Bool := true
  readable : Bool := true
  decodable : Bool := true
deriving DecidableEq, Repr

/-- A directory tree flattened to the files `os.walk` would enumerate after
`IGNORED_DIRS` pruning (no claim concerns the pruning itself), with their
paths relative to the root. -/
structure Directory where
  path : Str
  files : List SrcFile
  isDir : Bool := true
deriving Repr

/-- `os.path.join(root, filename)` for a file of the directory:
`relpath(fullPath d f, d.path) = f.relPath`. -/
def dirFullPath (d : Directory) (f : SrcFile) : Str :=
  d.path ++ '/' :: f.relPath

/-- `compute_file_hash` (extractor.py:118): reads raw bytes and digests them.
There is no error handling in the source: a missing or unreadable file makes
`open` raise, which this model returns as `Except.error`. -/
def compute_file_hash (file_path : Str) (f : SrcFile) : Except Str Str :=
  if f.fsExists ∧ f.readable then Except.ok (md5 f.content)
  else Except.error (chars "OSError: cannot read " ++ file_path)

/-- `extract_from_file` (extractor.py:564).  `Except.error` models an
exception escaping the function (only the Python import-target `IndexError`
can do so); the guarded error cases return an `ExtractionResult` whose
`errors` list is non-empty. -/
def extract_from_file (m : Matcher) (file_path : Str) (f : SrcFile) :
    Except Str ExtractionResult :=
  if f.fsExists = false then
    Except.ok
      { file_path := file_path
        errors := [chars "File not found: " ++ file_path] }
  else
    match detect_language file_path with
    | none =>
      Except.ok
        { file_path := file_path
          errors := [chars "Unsupported file type: " ++ file_path] }
    | some lang =>
      if f.readable = false then
        Except.ok
          { file_path := file_path
            errors := [chars "Failed to read file: " ++ file_path] }
      else if f.decodable = false then
        Except.ok
          { file_path := file_path
            errors :=
              [chars "Failed to decode file with supported encodings: "
                ++ file_path] }
      else
        match lang with
        | .typescript => Except.ok (extract_typescript m f.content file_path)
        | .javascript => Except.ok (extract_typescript m f.content file_path)
        | .python => extract_python m f.content file_path
        | .go =>
          Except.ok
            { file_path := file_path
              language := chars "go"
              errors := [chars "Extractor not implemented for: go"] }

/-- First-match lookup in an association list (SQLite rows have unique keys,
and `upsertA` rewrites every matching entry, so first-match is exact). -/
def lookupA (h : List (Str × Str)) (k : Str) : Option Str :=
  match h with
  | [] => none
  | (k2, v) :: t => if k2 = k then some v else lookupA t k

/-- Python `dict` assignment `h[k] = v`: overwrite the entry if the key is
present, otherwise append. -/
def upsertA (h : List (Str × Str)) (k : Str) (v : Str) : List (Str × Str) :=
  if h.any (fun e => e.1 = k) then
    h.map (fun e => if e.1 = k then (k, v) else e)
  else h ++ [(k, v)]

/-- The aggregate state/result of `extract_from_directory`
(extractor.py:622): merged nodes and edges, counters, accumulated errors and
the new hash table. -/
structure WalkResult where
  nodes : List CodeNode := []
  edges : List CodeEdge := []
  files_processed : Nat := 0
  files_skipped : Nat := 0
  errors : List Str := []
  file_hashes : List (Str × Str) := []
deriving DecidableEq, Repr

/-- One iteration of the file loop of `extract_from_directory`
(extractor.py:670): unsupported extensions are skipped silently; in
incremental mode the content hash is computed (raising on an unreadable
file) and an unchanged file is recorded as skipped; otherwise the file is
extracted and its contribution merged. -/
def walkStep (m : Matcher) (d : Directory) (incremental : Bool)
    (file_hashes : List (Str × Str)) (acc : WalkResult) (f : SrcFile) :
    Except Str WalkResult :=
  let ext := (extOf f.relPath).map Char.toLower
  if (langOfExt ext).isNone then Except.ok acc
  else
    let file_path := dirFullPath d f
    let rel_path := f.relPath
    let processFile : Except Str WalkResult := do
      let result ← extract_from_file m file_path f
      if result.errors.isEmpty then
        pure
          { acc with
            nodes := acc.nodes ++ result.nodes
            edges := acc.edges ++ result.edges
            file_hashes := upsertA acc.file_hashes rel_path result.file_hash
            files_processed := acc.files_processed + 1 }
      else pure { acc with errors := acc.errors ++ result.errors }
    if incremental then do
      let current_hash ← compute_file_hash file_path f
      if lookupA file_hashes rel_path = some current_hash then
        pure
          { acc with
            files_skipped := acc.files_skipped + 1
            file_hashes := upsertA acc.file_hashes rel_path current_hash }
      else processFile
    else processFile

/-- `extract_from_directory` (extractor.py:622).  The unused `project`
parameter of the source is omitted.  `file_hashes` is the prior
`rel_path -> hash` map. -/
def extract_from_directory (m : Matcher) (d : Directory)
    (incremental : Bool) (file_hashes : List (Str × Str)) :
    Except Str WalkResult :=
  if d.isDir = false then
    Except.ok
      { errors := [chars "Directory not found: " ++ d.path] }
  else
    d.files.foldlM (walkStep m d incremental file_hashes) {}

/-- A row of the `code_nodes` table, keyed by `(id, project)`.
`last_updated` is not modelled (no claim mentions it). -/
structure NodeRow where
  id : Str
  project : Str
  kind : Str
  name : Str
  file_path : Str
  line_start : Nat
  line_end : Nat
  signature : Option Str
  language : Option Str
  visibility : Option Str
  hash : Option Str
deriving DecidableEq, Repr

/-- A row of the `code_edges` table, keyed by
`(project, from_id, to_id, kind)`. -/
structure EdgeRow where
  project : Str
  from_id : Str
  to_id : Str
  kind : Str
  line_number : Option Nat
  confidence : Rat
deriving DecidableEq, Repr

/-- A row of the `file_hashes` table, keyed by `(project, file_path)`.
`last_updated` is not modelled. -/
structure HashRow where
  project : Str
  file_path : Str
  hash : Str
  node_count : Nat
  edge_count : Nat
deriving DecidableEq, Repr

/-- The three code-graph tables of the store. -/
structure DB where
  nodes : List NodeRow := []
  edges : List EdgeRow := []
  hashes : List HashRow := []
deriving DecidableEq, Repr

/-- The result dict of `sync_from_directory` (code_graph.py:95). -/
structure SyncResult where
  nodes_added : Nat
  nodes_updated : Nat
  edges_added : Nat
  files_processed : Nat
  files_skipped : Nat
  errors : List Str
deriving DecidableEq, Repr

/-- The node row written for an extracted node (code_graph.py:151). -/
def nodeRowOf (project : Str) (n : CodeNode) : NodeRow :=
  { id := n.id
    project := project
    kind := n.kind
    name := n.name
    file_path := n.file_path
    line_start := n.line_start
    line_end := n.line_end
    signature := n.signature
    language := n.language
    visibility := n.visibility
    hash := n.hash }

/-- `INSERT INTO code_nodes .. ON CONFLICT(id, project) DO UPDATE`
(code_graph.py:151): replace the matching row in place (every mutable column
is overwritten), otherwise append. -/
def upsertNode (project : Str) (n : CodeNode) (rows : List NodeRow) :
    List NodeRow :=
  if rows.any (fun r => r.id = n.id ∧ r.project = project) then
    rows.map (fun r =>
      if r.id = n.id ∧ r.project = project then nodeRowOf project n else r)
  else rows ++ [nodeRowOf project n]

/-- The node loop of `sync_from_directory` (code_graph.py:149): each upsert
bumps `conn.total_changes` by one row, and `nodes_added` is incremented
whenever the cumulative `conn.total_changes` is positive.  The
`sqlite3.IntegrityError` handler incrementing `nodes_updated` is
unreachable, because the `ON CONFLICT` clause absorbs the only possible
constraint violation; accordingly the upsert has no failure path here.
Returns `(rows, total_changes, nodes_added)`. -/
def mergeNodesStep (project : Str) (st : List NodeRow × Nat × Nat)
    (n : CodeNode) : List NodeRow × Nat × Nat :=
  let rows2 := upsertNode project n st.1
  let tc := st.2.1 + 1
  (rows2, tc, if 0 < tc then st.2.2 + 1 else st.2.2)

def mergeNodes (project : Str) (ns : List CodeNode) (rows : List NodeRow) :
    List NodeRow × Nat × Nat :=
  ns.foldl (mergeNodesStep project) (rows, 0, 0)

/-- The `DELETE FROM code_edges WHERE project = ? AND from_id LIKE ?` pattern
for a processed file (code_graph.py:183): `f"%.{file_path}%"`. -/
def deletePattern (file_path : Str) : Str :=
  '%' :: '.' :: (file_path ++ ['%'])

/-- The edge-deletion loop of `sync_from_directory` (code_graph.py:181): for
every processed file, delete the project's edges whose `from_id` matches the
LIKE pattern.  (The source iterates a Python set; the filters commute, so the
list order is immaterial.) -/
def deleteEdgesForFiles (project : Str) (paths : List Str)
    (rows : List EdgeRow) : List EdgeRow :=
  paths.foldl
    (fun es fp =>
      es.filter (fun e =>
        !(e.project == project && likeMatch (deletePattern fp) e.from_id)))
    rows

/-- `file_path` values of the file-kind nodes of a walk result
(code_graph.py:180). -/
def processedFilePaths (r : WalkResult) : List Str :=
  (r.nodes.filter (fun n => n.kind = chars "file")).map (fun n => n.file_path)

/-- The edge row written for an extracted edge (code_graph.py:193);
`edge.get('confidence', 1.0)` always finds the dict key. -/
def edgeRowOf (project : Str) (e : CodeEdge) : EdgeRow :=
  { project := project
    from_id := e.from_id
    to_id := e.to_id
    kind := e.kind
    line_number := e.line_number
    confidence := e.confidence }

/-- `INSERT OR IGNORE INTO code_edges` (code_graph.py:193): keep the first
row for the key `(project, from_id, to_id, kind)`. -/
def insertEdgeOrIgnore (project : Str) (e : CodeEdge)
    (rows : List EdgeRow) : List EdgeRow :=
  if rows.any (fun r =>
      r.project = project ∧ r.from_id = e.from_id ∧ r.to_id = e.to_id ∧
        r.kind = e.kind) then
    rows
  else rows ++ [edgeRowOf project e]

/-- The edge-insertion loop (code_graph.py:191): `edges_added` is
incremented for every extracted edge, whether or not the insert was
ignored. -/
def mergeEdges (project : Str) (es : List CodeEdge)
    (rows : List EdgeRow) : List EdgeRow × Nat :=
  es.foldl
    (fun st e => (insertEdgeOrIgnore project e st.1, st.2 + 1))
    (rows, 0)

/-- `INSERT INTO file_hashes .. ON CONFLICT(project, file_path) DO UPDATE`
(code_graph.py:213): replace the matching row in place, otherwise append. -/
def upsertHashRow (project file_path hash : Str) (nc ec : Nat)
    (rows : List HashRow) : List HashRow :=
  let row : HashRow :=
    { project := project, file_path := file_path, hash := hash
      node_count := nc, edge_count := ec }
  if rows.any (fun r => r.project = project ∧ r.file_path = file_path) then
    rows.map (fun r =>
      if r.project = project ∧ r.file_path = file_path then row else r)
  else rows ++ [row]

/-- The hash-update loop (code_graph.py:209): for every `(rel_path, hash)`
of the walk result, recompute the advisory per-file node and edge counts
from the merged lists and upsert the row. -/
def mergeHashes (project : Str) (pairs : List (Str × Str))
    (nodes : List CodeNode) (edges : List CodeEdge)
    (rows : List HashRow) : List HashRow :=
  pairs.foldl
    (fun hs p =>
      let node_count :=
        (nodes.filter (fun n =>
          n.file_path == p.1 || p.1.isSuffixOf n.file_path)).length
      let edge_count :=
        (edges.filter (fun e => containsSub p.1 e.from_id)).length
      upsertHashRow project p.1 p.2 node_count edge_count hs)
    rows

/-- The `existing_hashes` map loaded at the top of `sync_from_directory`
(code_graph.py:117): the project's `file_hashes` rows when incremental,
empty otherwise. -/
def existingHashes (db : DB) (project : Str) (incremental : Bool) :
    List (Str × Str) :=
  if incremental then
    (db.hashes.filter (fun r => r.project = project)).map
      (fun r => (r.file_path, r.hash))
  else []

/-- `sync_from_directory` (code_graph.py:95).  `Except.error` is an
exception escaping the call: the connection closes without committing, so
the caller's store is unchanged.  On success the new store and the result
dict are returned; a non-empty walk `errors` list aborts before any write
(code_graph.py:133).  `nodes_updated` is the source's variable, which only
the unreachable `IntegrityError` handler increments. -/
def sync_from_directory (m : Matcher) (db : DB) (project : Str)
    (d : Directory) (incremental : Bool) :
    Except Str (DB × SyncResult) := do
  let result ← extract_from_directory m d incremental
    (existingHashes db project incremental)
  if result.errors.isEmpty then
    let merged := mergeNodes project result.nodes db.nodes
    let afterDelete :=
      deleteEdgesForFiles project (processedFilePaths result) db.edges
    let mergedE := mergeEdges project result.edges afterDelete
    let hashRows :=
      mergeHashes project result.file_hashes result.nodes result.edges
        db.hashes
    pure
      ({ nodes := merged.1, edges := mergedE.1, hashes := hashRows },
       { nodes_added := merged.2.2
         nodes_updated := 0
         edges_added := mergedE.2
         files_processed := result.files_processed
         files_skipped := result.files_skipped
         errors := [] })
  else
    pure
      (db,
       { nodes_added := 0, nodes_updated := 0, edges_added := 0
         files_processed := 0, files_skipped := 0
         errors := result.errors })

/-- `clear_code_graph` (code_graph.py:454): delete the project's nodes,
edges and hash rows; returns the deleted node count. -/
def clear_code_graph (db : DB) (project : Str) : DB × Nat :=
  let count := (db.nodes.filter (fun r => r.project = project)).length
  ({ nodes := db.nodes.filter (fun r => r.project ≠ project)
     edges := db.edges.filter (fun r => r.project ≠ project)
     hashes := db.hashes.filter (fun r => r.project ≠ project) },
   count)

/-- A pattern ending in `%` matches its own literal text followed by
anything: wildcard pattern characters still match themselves. -/
theorem likeMatch_append_pct (q : Str) : ∀ s : Str,
    likeMatch (q ++ ['%']) (q ++ s) = true := by
  induction q with
  | nil =>
    intro s
    simp only [List.nil_append, likeMatch, if_true]
    rw [List.any_eq_true]
    refine ⟨[], ?_, ?_⟩
    · rw [List.mem_tails]
      exact List.nil_suffix
    · simp [likeMatch]
  | cons c q ih =>
    intro s
    by_cases hc : c = '%'
    · subst hc
      simp only [List.cons_append, likeMatch, if_true]
      rw [List.any_eq_true]
      refine ⟨q ++ s, ?_, ih s⟩
      rw [List.mem_tails]
      exact (List.suffix_refl _).trans (List.suffix_cons _ _)
    · by_cases hu : c = '_'
      · subst hu
        simpa [likeMatch] using ih s
      · simp [likeMatch, hc, hu, ih s]

/-- A pattern starting with `%` matches any string with a matching
suffix. -/
theorem likeMatch_pct_prefix (q pre s : Str) (h : likeMatch q s = true) :
    likeMatch ('%' :: q) (pre ++ s) = true := by
  simp only [likeMatch, if_true]
  rw [List.any_eq_true]
  refine ⟨s, ?_, h⟩
  rw [List.mem_tails]
  exact List.suffix_append pre s

/-- The sync engine's deletion pattern `%.{fp}%` matches every string that
contains `.{fp}` literally. -/
theorem deletePattern_matches (fp pre post : Str) :
    likeMatch (deletePattern fp) (pre ++ ('.' :: fp) ++ post) = true := by
  have h := likeMatch_append_pct ('.' :: fp) post
  have h2 := likeMatch_pct_prefix (('.' :: fp) ++ ['%']) pre (('.' :: fp) ++ post) h
  simpa [deletePattern, List.append_assoc] using h2

/-- Every node id built by `make_node_id` for a file matches that file's
deletion pattern. -/
theorem make_node_id_matches (k fp : Str) (n : Option Str) :
    likeMatch (deletePattern fp) (make_node_id k fp n) = true := by
  cases n with
  | none =>
    have h := deletePattern_matches fp k []
    simpa [make_node_id] using h
  | some nm =>
    have h := deletePattern_matches fp k (':' :: nm)
    simpa [make_node_id, List.append_assoc] using h

/-- A node row whose key `(id, project)` differs from the upserted node's
key is left untouched by the upsert. -/
theorem upsertNode_preserve (project : Str) (n : CodeNode)
    (rows : List NodeRow) (row : NodeRow) (hmem : row ∈ rows)
    (hne : ¬(row.id = n.id ∧ row.project = project)) :
    row ∈ upsertNode project n rows := by
  unfold upsertNode
  by_cases h : rows.any (fun r => r.id = n.id ∧ r.project = project)
  · rw [if_pos h]
    refine List.mem_map.mpr ⟨row, hmem, ?_⟩
    rw [if_neg hne]
  · rw [if_neg h]
    exact List.mem_append_left _ hmem

/-- Rows lemma for the node loop: a stored row keyed differently from every
extracted node survives the merge unchanged. -/
theorem mergeNodes_preserve (project : Str) (ns : List CodeNode)
    (rows : List NodeRow) (row : NodeRow) (hmem : row ∈ rows)
    (hne : ∀ n ∈ ns, ¬(row.id = n.id ∧ row.project = project)) :
    row ∈ (mergeNodes project ns rows).1 := by
  unfold mergeNodes
  suffices h : ∀ (tc added : Nat) (rows2 : List NodeRow), row ∈ rows2 →
      row ∈ (ns.foldl (mergeNodesStep project) (rows2, tc, added)).1 by
    exact h 0 0 rows hmem
  clear hmem
  induction ns with
  | nil => intro tc added rows2 hmem; simpa using hmem
  | cons n ns ih =>
    intro tc added rows2 hmem
    rw [List.foldl_cons, mergeNodesStep]
    exact ih (fun g hg => hne g (List.mem_cons_of_mem _ hg)) _ _ _
      (upsertNode_preserve project n rows2 row hmem
        (hne n (List.mem_cons_self _ _)))

/-- The node loop increments `nodes_added` once per extracted node: the
cumulative `total_changes` is already positive when the first check runs. -/
theorem mergeNodes_added (project : Str) (ns : List CodeNode)
    (rows : List NodeRow) :
    (mergeNodes project ns rows).2.2 = ns.length := by
  unfold mergeNodes
  suffices h : ∀ (rows2 : List NodeRow) (tc added : Nat),
      (ns.foldl (mergeNodesStep project) (rows2, tc, added)).2.2
        = added + ns.length by
    simpa using h rows 0 0
  induction ns with
  | nil => intro rows2 tc added; simp
  | cons n ns ih =>
    intro rows2 tc added
    have hstep : mergeNodesStep project (rows2, tc, added) n
        = (upsertNode project n rows2, tc + 1, added + 1) := by
      simp [mergeNodesStep]
    rw [List.foldl_cons, hstep, ih, List.length_cons]
    omega

/-- `INSERT OR IGNORE` never removes a row. -/
theorem insertEdgeOrIgnore_preserve (project : Str) (e : CodeEdge)
    (rows : List EdgeRow) (row : EdgeRow) (hmem : row ∈ rows) :
    row ∈ insertEdgeOrIgnore project e rows := by
  unfold insertEdgeOrIgnore
  by_cases h : rows.any fun r =>
      r.project = project ∧ r.from_id = e.from_id ∧ r.to_id = e.to_id ∧
        r.kind = e.kind
  · rw [if_pos h]; exact hmem
  · rw [if_neg h]; exact List.mem_append_left _ hmem

/-- A row produced by `INSERT OR IGNORE` is an old row or the inserted
one. -/
theorem insertEdgeOrIgnore_elim (project : Str) (e : CodeEdge)
    (rows : List EdgeRow) (row : EdgeRow)
    (hmem : row ∈ insertEdgeOrIgnore project e rows) :
    row ∈ rows ∨ row = edgeRowOf project e := by
  unfold insertEdgeOrIgnore at hmem
  by_cases h : rows.any fun r =>
      r.project = project ∧ r.from_id = e.from_id ∧ r.to_id = e.to_id ∧
        r.kind = e.kind
  · rw [if_pos h] at hmem; exact Or.inl hmem
  · rw [if_neg h] at hmem
    rcases List.mem_append.mp hmem with h2 | h2
    · exact Or.inl h2
    · exact Or.inr (List.mem_singleton.mp h2)

/-- The edge-insertion loop only appends: old rows survive. -/
theorem mergeEdges_preserve (project : Str) (es : List CodeEdge)
    (rows : List EdgeRow) (row : EdgeRow) (hmem : row ∈ rows) :
    row ∈ (mergeEdges project es rows).1 := by
  unfold mergeEdges
  suffices h : ∀ (rows2 : List EdgeRow) (cnt : Nat), row ∈ rows2 →
      row ∈ (es.foldl
        (fun st e => (insertEdgeOrIgnore project e st.1, st.2 + 1))
        (rows2, cnt)).1 by
    exact h rows 0 hmem
  clear hmem
  induction es with
  | nil => intro rows2 cnt hmem; simpa using hmem
  | cons e es ih =>
    intro rows2 cnt hmem
    simp only [List.foldl_cons]
    exact ih _ _ (insertEdgeOrIgnore_preserve project e rows2 row hmem)

/-- Every row present after the edge-insertion loop is an old row or comes
from one of the extracted edges. -/
theorem mergeEdges_elim (project : Str) (es : List CodeEdge)
    (rows : List EdgeRow) (row : EdgeRow)
    (hmem : row ∈ (mergeEdges project es rows).1) :
    row ∈ rows ∨ ∃ e ∈ es, row = edgeRowOf project e := by
  unfold mergeEdges at hmem
  suffices h : ∀ (rows2 : List EdgeRow) (cnt : Nat),
      row ∈ (es.foldl
        (fun st e => (insertEdgeOrIgnore project e st.1, st.2 + 1))
        (rows2, cnt)).1 →
      row ∈ rows2 ∨ ∃ e ∈ es, row = edgeRowOf project e by
    exact h rows 0 hmem
  clear hmem
  induction es with
  | nil => intro rows2 cnt hmem; simpa using hmem
  | cons e es ih =>
    intro rows2 cnt hmem
    simp only [List.foldl_cons] at hmem
    rcases ih _ _ hmem with h2 | ⟨e2, he2, hrow⟩
    · rcases insertEdgeOrIgnore_elim project e rows2 row h2 with h3 | h3
      · exact Or.inl h3
      · exact Or.inr ⟨e, List.mem_cons_self _ _, h3⟩
    · exact Or.inr ⟨e2, List.mem_cons_of_mem _ he2, hrow⟩

/-- `edges_added` counts every extracted edge, ignored duplicates
included. -/
theorem mergeEdges_count (project : Str) (es : List CodeEdge)
    (rows : List EdgeRow) :
    (mergeEdges project es rows).2 = es.length := by
  unfold mergeEdges
  suffices h : ∀ (rows2 : List EdgeRow) (cnt : Nat),
      (es.foldl
        (fun st e => (insertEdgeOrIgnore project e st.1, st.2 + 1))
        (rows2, cnt)).2 = cnt + es.length by
    simpa using h rows 0
  induction es with
  | nil => intro rows2 cnt; simp
  | cons e es ih =>
    intro rows2 cnt
    simp only [List.foldl_cons, List.length_cons]
    rw [ih]
    omega

/-- The Bool predicate kept by the deletion filter, as a proposition. -/
theorem delPred_iff (project fp : Str) (e : EdgeRow) :
    ((!(e.project == project && likeMatch (deletePattern fp) e.from_id))
      = true) ↔
    ¬(e.project = project ∧
      likeMatch (deletePattern fp) e.from_id = true) := by
  simp [imp_iff_not_or]

/-- Membership characterisation of the per-file edge deletion: a row
survives iff it was present and no processed file's pattern matches it. -/
theorem mem_deleteEdgesForFiles (project : Str) (paths : List Str)
    (rows : List EdgeRow) (row : EdgeRow) :
    row ∈ deleteEdgesForFiles project paths rows ↔
      row ∈ rows ∧ ∀ fp ∈ paths,
        ¬(row.project = project ∧
          likeMatch (deletePattern fp) row.from_id = true) := by
  unfold deleteEdgesForFiles
  induction paths generalizing rows with
  | nil => simp
  | cons fp paths ih =>
    rw [List.foldl_cons, ih]
    constructor
    · rintro ⟨hmem, hall⟩
      rw [List.mem_filter] at hmem
      refine ⟨hmem.1, ?_⟩
      intro fp2 hfp2
      rcases List.mem_cons.mp hfp2 with h2 | h2
      · subst h2
        exact (delPred_iff project fp2 row).mp hmem.2
      · exact hall fp2 h2
    · rintro ⟨hmem, hall⟩
      refine ⟨?_, fun fp2 hfp2 => hall fp2 (List.mem_cons_of_mem _ hfp2)⟩
      rw [List.mem_filter]
      exact ⟨hmem, (delPred_iff project fp row).mpr
        (hall fp (List.mem_cons_self _ _))⟩

/-- Overwriting map step of `upsertA`: the key is found and rewritten. -/
theorem lookupA_overwrite_self (h : List (Str × Str)) (k v : Str)
    (hk : h.any (fun e => e.1 = k) = true) :
    lookupA (h.map (fun e => if e.1 = k then (k, v) else e)) k = some v := by
  induction h with
  | nil => simp at hk
  | cons x t ih =>
    obtain ⟨x1, x2⟩ := x
    simp only [List.any_cons, Bool.or_eq_true] at hk
    rw [List.map_cons]
    by_cases hx : x1 = k
    · have hblob : (if (x1, x2).1 = k then (k, v) else (x1, x2)) = (k, v) :=
        if_pos hx
      rw [hblob]
      simp [lookupA]
    · have hblob : (if (x1, x2).1 = k then (k, v) else (x1, x2)) = (x1, x2) :=
        if_neg hx
      rw [hblob]
      have hk2 : t.any (fun e => e.1 = k) = true := by
        rcases hk with h1 | h1
        · exact absurd (by simpa using h1) hx
        · exact h1
      simp only [lookupA]
      rw [if_neg hx]
      exact ih hk2

/-- Overwriting map step of `upsertA`: other keys are untouched. -/
theorem lookupA_overwrite_ne (h : List (Str × Str)) (k v k2 : Str)
    (hne : k2 ≠ k) :
    lookupA (h.map (fun e => if e.1 = k then (k, v) else e)) k2
      = lookupA h k2 := by
  induction h with
  | nil => simp [lookupA]
  | cons x t ih =>
    obtain ⟨x1, x2⟩ := x
    rw [List.map_cons]
    by_cases hx : x1 = k
    · have hblob : (if (x1, x2).1 = k then (k, v) else (x1, x2)) = (k, v) :=
        if_pos hx
      rw [hblob]
      simp only [lookupA]
      rw [if_neg (fun he : k = k2 => hne he.symm),
        if_neg (fun he : x1 = k2 => hne (hx ▸ he).symm)]
      exact ih
    · have hblob : (if (x1, x2).1 = k then (k, v) else (x1, x2)) = (x1, x2) :=
        if_neg hx
      rw [hblob]
      simp only [lookupA]
      by_cases hxk : x1 = k2
      · rw [if_pos hxk, if_pos hxk]
      · rw [if_neg hxk, if_neg hxk]
        exact ih

/-- Appending step of `upsertA`: the new key is found at the end. -/
theorem lookupA_append_self (h : List (Str × Str)) (k v : Str)
    (hk : h.any (fun e => e.1 = k) = false) :
    lookupA (h ++ [(k, v)]) k = some v := by
  induction h with
  | nil => simp [lookupA]
  | cons x t ih =>
    obtain ⟨x1, x2⟩ := x
    simp only [List.any_cons, Bool.or_eq_false_iff] at hk
    simp only [List.cons_append, lookupA]
    rw [if_neg (by simpa using hk.1)]
    exact ih hk.2

/-- Appending step of `upsertA`: other keys are untouched. -/
theorem lookupA_append_ne (h : List (Str × Str)) (k v k2 : Str)
    (hne : k2 ≠ k) :
    lookupA (h ++ [(k, v)]) k2 = lookupA h k2 := by
  induction h with
  | nil =>
    simp only [List.nil_append, lookupA]
    rw [if_neg (fun he : k = k2 => hne he.symm)]
  | cons x t ih =>
    obtain ⟨x1, x2⟩ := x
    simp only [List.cons_append, lookupA]
    by_cases hxk : x1 = k2
    · rw [if_pos hxk, if_pos hxk]
    · rw [if_neg hxk, if_neg hxk]
      exact ih

/-- `upsertA` stores the new value under its key. -/
theorem lookupA_upsertA_self (h : List (Str × Str)) (k v : Str) :
    lookupA (upsertA h k v) k = some v := by
  unfold upsertA
  by_cases hk : h.any (fun e => e.1 = k)
  · rw [if_pos hk]
    exact lookupA_overwrite_self h k v hk
  · rw [if_neg hk]
    exact lookupA_append_self h k v (Bool.eq_false_iff.mpr hk)

/-- `upsertA` leaves other keys alone. -/
theorem lookupA_upsertA_ne (h : List (Str × Str)) (k v k2 : Str)
    (hne : k2 ≠ k) : lookupA (upsertA h k v) k2 = lookupA h k2 := by
  unfold upsertA
  by_cases hk : h.any (fun e => e.1 = k)
  · rw [if_pos hk]
    exact lookupA_overwrite_ne h k v k2 hne
  · rw [if_neg hk]
    exact lookupA_append_ne h k v k2 hne

/-- Repeated `upsertA` over a list of pairs (the hash-table effect of a
walk). -/
def upsertMany (h : List (Str × Str)) (ps : List (Str × Str)) :
    List (Str × Str) :=
  ps.foldl (fun h2 pr => upsertA h2 pr.1 pr.2) h

/-- A key absent from the pairs is untouched by `upsertMany`. -/
theorem lookupA_upsertMany_notin (ps : List (Str × Str))
    (h : List (Str × Str)) (k : Str) (hk : ∀ pr ∈ ps, pr.1 ≠ k) :
    lookupA (upsertMany h ps) k = lookupA h k := by
  induction ps generalizing h with
  | nil => rfl
  | cons pr ps ih =>
    rw [upsertMany, List.foldl_cons]
    rw [show List.foldl (fun h2 pr => upsertA h2 pr.1 pr.2)
      (upsertA h pr.1 pr.2) ps = upsertMany (upsertA h pr.1 pr.2) ps from rfl]
    rw [ih _ (fun q hq => hk q (List.mem_cons_of_mem _ hq))]
    exact lookupA_upsertA_ne h pr.1 pr.2 k
      (fun he => hk pr (List.mem_cons_self _ _) he.symm)

/-- With duplicate-free keys, `upsertMany` stores each pair's value under
its key. -/
theorem lookupA_upsertMany_mem (ps : List (Str × Str))
    (h : List (Str × Str)) (k v : Str) (hmem : (k, v) ∈ ps)
    (hnodup : (ps.map Prod.fst).Nodup) :
    lookupA (upsertMany h ps) k = some v := by
  induction ps generalizing h with
  | nil => cases hmem
  | cons pr ps ih =>
    rw [upsertMany, List.foldl_cons]
    rw [show List.foldl (fun h2 pr => upsertA h2 pr.1 pr.2)
      (upsertA h pr.1 pr.2) ps = upsertMany (upsertA h pr.1 pr.2) ps from rfl]
    rw [List.map_cons, List.nodup_cons] at hnodup
    rcases List.mem_cons.mp hmem with rfl | hmem2
    · rw [lookupA_upsertMany_notin ps _ k
        (fun q hq hqk => hnodup.1
          (show k ∈ List.map Prod.fst ps from
            hqk ▸ List.mem_map_of_mem Prod.fst hq))]
      exact lookupA_upsertA_self h k v
    · exact ih _ hmem2 hnodup.2

/-- First-match hash lookup in the `file_hashes` table by
`(project, file_path)`. -/
def rowHash : List HashRow → Str → Str → Option Str
  | [], _, _ => none
  | r :: t, p, fp =>
    if r.project = p ∧ r.file_path = fp then some r.hash else rowHash t p fp

/-- The `existing_hashes` dict built by `sync_from_directory` agrees with
first-match lookup over the `file_hashes` rows. -/
theorem lookupA_existingHashes (db : DB) (project fp : Str) :
    lookupA (existingHashes db project true) fp
      = rowHash db.hashes project fp := by
  unfold existingHashes
  rw [if_pos rfl]
  induction db.hashes with
  | nil => rfl
  | cons r t ih =>
    by_cases hp : r.project = project
    · rw [List.filter_cons_of_pos (by simpa using hp), List.map_cons]
      by_cases hf : r.file_path = fp
      · rw [rowHash, if_pos ⟨hp, hf⟩]
        simp only [lookupA]
        rw [if_pos hf]
      · rw [rowHash, if_neg (fun hc => hf hc.2)]
        simp only [lookupA]
        rw [if_neg hf]
        exact ih
    · rw [List.filter_cons_of_neg (by simpa using hp)]
      rw [rowHash, if_neg (fun hc => hp hc.1)]
      exact ih

/-- Overwriting map step of `upsertHashRow`: the key is found. -/
theorem rowHash_overwrite_self (project fp h : Str) (nc ec : Nat)
    (rows : List HashRow)
    (hk : rows.any (fun r => r.project = project ∧ r.file_path = fp)
      = true) :
    rowHash (rows.map (fun r =>
      if r.project = project ∧ r.file_path = fp then
        { project := project, file_path := fp, hash := h,
          node_count := nc, edge_count := ec }
      else r)) project fp = some h := by
  induction rows with
  | nil => simp at hk
  | cons r t ih =>
    simp only [List.any_cons, Bool.or_eq_true] at hk
    rw [List.map_cons]
    by_cases hr : r.project = project ∧ r.file_path = fp
    · rw [if_pos hr]
      simp [rowHash]
    · rw [if_neg hr]
      simp only [rowHash]
      rw [if_neg hr]
      have hk2 : t.any (fun r => r.project = project ∧ r.file_path = fp)
          = true := by
        rcases hk with h1 | h1
        · exact absurd (by simpa using h1) hr
        · exact h1
      exact ih hk2

/-- Overwriting map step of `upsertHashRow`: other keys untouched. -/
theorem rowHash_overwrite_ne (project fp h : Str) (nc ec : Nat)
    (rows : List HashRow) (p2 fp2 : Str)
    (hne : ¬(p2 = project ∧ fp2 = fp)) :
    rowHash (rows.map (fun r =>
      if r.project = project ∧ r.file_path = fp then
        { project := project, file_path := fp, hash := h,
          node_count := nc, edge_count := ec }
      else r)) p2 fp2 = rowHash rows p2 fp2 := by
  induction rows with
  | nil => rfl
  | cons r t ih =>
    rw [List.map_cons]
    by_cases hr : r.project = project ∧ r.file_path = fp
    · rw [if_pos hr]
      simp only [rowHash]
      rw [if_neg (fun hc : project = p2 ∧ fp = fp2 =>
        hne ⟨hc.1.symm, hc.2.symm⟩)]
      rw [if_neg (fun hc : r.project = p2 ∧ r.file_path = fp2 =>
        hne ⟨hc.1.symm.trans hr.1, hc.2.symm.trans hr.2⟩)]
      exact ih
    · rw [if_neg hr]
      simp only [rowHash]
      by_cases hrk : r.project = p2 ∧ r.file_path = fp2
      · rw [if_pos hrk, if_pos hrk]
      · rw [if_neg hrk, if_neg hrk]
        exact ih

/-- Appending step of `upsertHashRow`: the new key is found at the end. -/
theorem rowHash_append_self (project fp h : Str) (nc ec : Nat)
    (rows : List HashRow)
    (hk : rows.any (fun r => r.project = project ∧ r.file_path = fp)
      = false) :
    rowHash (rows ++
      [{ project := project, file_path := fp, hash := h,
         node_count := nc, edge_count := ec }]) project fp = some h := by
  induction rows with
  | nil => simp [rowHash]
  | cons r t ih =>
    simp only [List.any_cons, Bool.or_eq_false_iff] at hk
    rw [List.cons_append]
    simp only [rowHash]
    rw [if_neg (by simpa using hk.1)]
    exact ih hk.2

/-- Appending step of `upsertHashRow`: other keys untouched. -/
theorem rowHash_append_ne (project fp h : Str) (nc ec : Nat)
    (rows : List HashRow) (p2 fp2 : Str)
    (hne : ¬(p2 = project ∧ fp2 = fp)) :
    rowHash (rows ++
      [{ project := project, file_path := fp, hash := h,
         node_count := nc, edge_count := ec }]) p2 fp2
      = rowHash rows p2 fp2 := by
  induction rows with
  | nil =>
    simp only [List.nil_append, rowHash]
    rw [if_neg (fun hc : project = p2 ∧ fp = fp2 =>
      hne ⟨hc.1.symm, hc.2.symm⟩)]
  | cons r t ih =>
    rw [List.cons_append]
    simp only [rowHash]
    by_cases hrk : r.project = p2 ∧ r.file_path = fp2
    · rw [if_pos hrk, if_pos hrk]
    · rw [if_neg hrk, if_neg hrk]
      exact ih

/-- `upsertHashRow` stores the new hash under its key. -/
theorem rowHash_upsertHashRow_self (project fp h : Str) (nc ec : Nat)
    (rows : List HashRow) :
    rowHash (upsertHashRow project fp h nc ec rows) project fp = some h := by
  unfold upsertHashRow
  by_cases hk : rows.any (fun r => r.project = project ∧ r.file_path = fp)
  · rw [if_pos hk]
    exact rowHash_overwrite_self project fp h nc ec rows hk
  · rw [if_neg hk]
    exact rowHash_append_self project fp h nc ec rows
      (Bool.eq_false_iff.mpr hk)

/-- `upsertHashRow` leaves other keys alone. -/
theorem rowHash_upsertHashRow_ne (project fp h : Str) (nc ec : Nat)
    (rows : List HashRow) (p2 fp2 : Str)
    (hne : ¬(p2 = project ∧ fp2 = fp)) :
    rowHash (upsertHashRow project fp h nc ec rows) p2 fp2
      = rowHash rows p2 fp2 := by
  unfold upsertHashRow
  by_cases hk : rows.any (fun r => r.project = project ∧ r.file_path = fp)
  · rw [if_pos hk]
    exact rowHash_overwrite_ne project fp h nc ec rows p2 fp2 hne
  · rw [if_neg hk]
    exact rowHash_append_ne project fp h nc ec rows p2 fp2 hne

/-- Keys that no walked file wrote are untouched by the hash-update loop. -/
theorem mergeHashes_rowHash_notin (project : Str)
    (pairs : List (Str × Str)) (ns : List CodeNode) (es : List CodeEdge)
    (rows : List HashRow) (p2 fp2 : Str)
    (hk : ∀ pr ∈ pairs, ¬(p2 = project ∧ fp2 = pr.1)) :
    rowHash (mergeHashes project pairs ns es rows) p2 fp2
      = rowHash rows p2 fp2 := by
  unfold mergeHashes
  induction pairs generalizing rows with
  | nil => rfl
  | cons pr pairs ih =>
    rw [List.foldl_cons]
    rw [ih _ (fun q hq => hk q (List.mem_cons_of_mem _ hq))]
    exact rowHash_upsertHashRow_ne project pr.1 pr.2 _ _ rows p2 fp2
      (hk pr (List.mem_cons_self _ _))

/-- With duplicate-free keys, the hash-update loop stores each walked
file's hash under its `(project, rel_path)` key. -/
theorem mergeHashes_rowHash_mem (project : Str)
    (pairs : List (Str × Str)) (ns : List CodeNode) (es : List CodeEdge)
    (rows : List HashRow) (fp v : Str) (hmem : (fp, v) ∈ pairs)
    (hnodup : (pairs.map Prod.fst).Nodup) :
    rowHash (mergeHashes project pairs ns es rows) project fp = some v := by
  unfold mergeHashes
  induction pairs generalizing rows with
  | nil => cases hmem
  | cons pr pairs ih =>
    rw [List.foldl_cons]
    rw [List.map_cons, List.nodup_cons] at hnodup
    rcases List.mem_cons.mp hmem with rfl | hmem2
    · rw [show List.foldl _ (upsertHashRow project (fp, v).1 (fp, v).2 _ _
        rows) pairs = mergeHashes project pairs ns es
          (upsertHashRow project fp v _ _ rows) from rfl]
      rw [mergeHashes_rowHash_notin project pairs ns es _ project fp
        (fun q hq hc => hnodup.1
          (show fp ∈ List.map Prod.fst pairs from
            hc.2 ▸ List.mem_map_of_mem Prod.fst hq))]
      exact rowHash_upsertHashRow_self project fp v _ _ rows
    · exact ih _ hmem2 hnodup.2

/-- A hash row keyed differently survives `upsertHashRow` unchanged. -/
theorem upsertHashRow_preserve (project fp h : Str) (nc ec : Nat)
    (rows : List HashRow) (row : HashRow) (hmem : row ∈ rows)
    (hne : ¬(row.project = project ∧ row.file_path = fp)) :
    row ∈ upsertHashRow project fp h nc ec rows := by
  unfold upsertHashRow
  by_cases hk : rows.any (fun r => r.project = project ∧ r.file_path = fp)
  · rw [if_pos hk]
    refine List.mem_map.mpr ⟨row, hmem, ?_⟩
    rw [if_neg hne]
  · rw [if_neg hk]
    exact List.mem_append_left _ hmem

/-- A hash row keyed differently from every walked file survives the
hash-update loop unchanged. -/
theorem mergeHashes_preserve (project : Str) (pairs : List (Str × Str))
    (ns : List CodeNode) (es : List CodeEdge) (rows : List HashRow)
    (row : HashRow) (hmem : row ∈ rows)
    (hne : ∀ pr ∈ pairs, ¬(row.project = project ∧ row.file_path = pr.1)) :
    row ∈ mergeHashes project pairs ns es rows := by
  unfold mergeHashes
  induction pairs generalizing rows with
  | nil => exact hmem
  | cons pr pairs ih =>
    rw [List.foldl_cons]
    exact ih _ (upsertHashRow_preserve project pr.1 pr.2 _ _ rows row hmem
      (hne pr (List.mem_cons_self _ _)))
      (fun q hq => hne q (List.mem_cons_of_mem _ hq))

/-- The walk's extension check for a file (extractor.py:671): the
lowercased extension of the filename is a `SUPPORTED_EXTENSIONS` key. -/
def fileEligible (f : SrcFile) : Bool :=
  (langOfExt ((extOf f.relPath).map Char.toLower)).isSome

/-- What one file adds to the walk aggregate. -/
structure Contribution where
  nodes : List CodeNode := []
  edges : List CodeEdge := []
  processed : Nat := 0
  skipped : Nat := 0
  errors : List Str := []
  hashPairs : List (Str × Str) := []
deriving DecidableEq, Repr

/-- Apply one file's contribution to the walk aggregate. -/
def applyC (acc : WalkResult) (c : Contribution) : WalkResult :=
  { nodes := acc.nodes ++ c.nodes
    edges := acc.edges ++ c.edges
    files_processed := acc.files_processed + c.processed
    files_skipped := acc.files_skipped + c.skipped
    errors := acc.errors ++ c.errors
    file_hashes := upsertMany acc.file_hashes c.hashPairs }

/-- The contribution of one file to a walk, read off `walkStep`: nothing
for an unsupported extension; a skip record for an unchanged file in
incremental mode; otherwise the extraction's nodes/edges (or its errors). -/
def fileContrib (m : Matcher) (d : Directory) (incremental : Bool)
    (hs : List (Str × Str)) (f : SrcFile) : Contribution :=
  if fileEligible f = false then {}
  else if incremental = true ∧ lookupA hs f.relPath = some (md5 f.content)
  then { skipped := 1, hashPairs := [(f.relPath, md5 f.content)] }
  else
    match extract_from_file m (dirFullPath d f) f with
    | Except.error _ => {}
    | Except.ok res =>
      if res.errors.isEmpty then
        { nodes := res.nodes, edges := res.edges, processed := 1
          hashPairs := [(f.relPath, res.file_hash)] }
      else { errors := res.errors }

/-- A file the walk can handle without raising: if its extension is
supported, the incremental hash computation succeeds and the extraction
does not throw. -/
def GoodStep (m : Matcher) (d : Directory) (incremental : Bool)
    (f : SrcFile) : Prop :=
  fileEligible f = true →
    (incremental = true → f.fsExists = true ∧ f.readable = true) ∧
    ∃ res, extract_from_file m (dirFullPath d f) f = Except.ok res

/-- On a good file, `walkStep` succeeds and adds exactly the file's
contribution. -/
theorem walkStep_eq (m : Matcher) (d : Directory) (incremental : Bool)
    (f : SrcFile) (hgood : GoodStep m d incremental f)
    (hs : List (Str × Str)) (acc : WalkResult) :
    walkStep m d incremental hs acc f
      = Except.ok (applyC acc (fileContrib m d incremental hs f)) := by
  unfold walkStep fileContrib
  simp only []
  by_cases hel : fileEligible f = true
  · have hnone : ((langOfExt ((extOf f.relPath).map Char.toLower)).isNone)
        = false := by
      unfold fileEligible at hel
      rcases Option.isSome_iff_exists.mp hel with ⟨lang, hl⟩
      rw [hl]; rfl
    rw [hnone, if_neg (by simp : ¬(false = true))]
    rw [if_neg (by simp [hel] : ¬(fileEligible f = false))]
    rcases hgood hel with ⟨hhash, res, hres⟩
    by_cases hinc : incremental = true
    · subst hinc
      rw [if_pos rfl]
      rcases hhash rfl with ⟨he, hr⟩
      have hch : compute_file_hash (dirFullPath d f) f
          = Except.ok (md5 f.content) := by
        unfold compute_file_hash
        rw [if_pos ⟨he, hr⟩]
      rw [hch]
      show (if lookupA hs f.relPath = some (md5 f.content) then _ else _)
        = _
      by_cases hskip : lookupA hs f.relPath = some (md5 f.content)
      · rw [if_pos hskip, if_pos ⟨rfl, hskip⟩]
        show Except.ok _ = _
        refine congrArg Except.ok ?_
        simp [applyC, upsertMany]
      · rw [if_neg hskip, if_neg (fun hc => hskip hc.2)]
        rw [hres]
        show (if res.errors.isEmpty = true then _ else _) = _
        by_cases herr : res.errors.isEmpty
        · rw [if_pos herr]
          show Except.ok _ = _
          refine congrArg Except.ok ?_
          simp [herr, applyC, upsertMany]
        · rw [if_neg herr]
          show Except.ok _ = _
          refine congrArg Except.ok ?_
          simp [herr, applyC, upsertMany]
    · have hincf : incremental = false := by
        cases incremental
        · rfl
        · exact absurd rfl hinc
      subst hincf
      rw [if_neg (by simp : ¬(false = true))]
      rw [if_neg (fun hc : false = true ∧ _ => by cases hc.1)]
      rw [hres]
      show (if res.errors.isEmpty = true then _ else _) = _
      by_cases herr : res.errors.isEmpty
      · rw [if_pos herr]
        show Except.ok _ = _
        refine congrArg Except.ok ?_
        simp [herr, applyC, upsertMany]
      · rw [if_neg herr]
        show Except.ok _ = _
        refine congrArg Except.ok ?_
        simp [herr, applyC, upsertMany]
  · have hel2 : fileEligible f = false := Bool.eq_false_iff.mpr hel
    have hnone : ((langOfExt ((extOf f.relPath).map Char.toLower)).isNone)
        = true := by
      unfold fileEligible at hel2
      rw [Option.isNone_iff_eq_none]
      rcases Option.eq_none_or_eq_some
        (langOfExt ((extOf f.relPath).map Char.toLower)) with h | ⟨a, h⟩
      · exact h
      · rw [h] at hel2; cases hel2
    rw [hnone, if_pos rfl, if_pos hel2]
    refine congrArg Except.ok ?_
    simp [applyC, upsertMany]

/-- Over good files, the walk fold succeeds and is the pure fold of the
per-file contributions. -/
theorem walk_foldlM (m : Matcher) (d : Directory) (incremental : Bool)
    (hs : List (Str × Str)) (fs : List SrcFile)
    (hgood : ∀ f ∈ fs, GoodStep m d incremental f) (acc : WalkResult) :
    List.foldlM (walkStep m d incremental hs) acc fs
      = Except.ok (fs.foldl
          (fun a f => applyC a (fileContrib m d incremental hs f)) acc) := by
  induction fs generalizing acc with
  | nil => rfl
  | cons f fs ih =>
    rw [List.foldlM_cons,
      walkStep_eq m d incremental f (hgood f (List.mem_cons_self _ _)) hs acc]
    rw [List.foldl_cons]
    show List.foldlM (walkStep m d incremental hs) _ fs = _
    exact ih (fun g hg => hgood g (List.mem_cons_of_mem _ hg)) _

/-- Closed form of the contribution fold, field by field. -/
theorem walkFold_eq (m : Matcher) (d : Directory) (incremental : Bool)
    (hs : List (Str × Str)) (fs : List SrcFile) (acc : WalkResult) :
    fs.foldl (fun a f => applyC a (fileContrib m d incremental hs f)) acc
      = { nodes := acc.nodes
            ++ fs.flatMap (fun f => (fileContrib m d incremental hs f).nodes)
          edges := acc.edges
            ++ fs.flatMap (fun f => (fileContrib m d incremental hs f).edges)
          files_processed := acc.files_processed
            + (fs.map (fun f =>
                (fileContrib m d incremental hs f).processed)).sum
          files_skipped := acc.files_skipped
            + (fs.map (fun f =>
                (fileContrib m d incremental hs f).skipped)).sum
          errors := acc.errors
            ++ fs.flatMap (fun f => (fileContrib m d incremental hs f).errors)
          file_hashes := upsertMany acc.file_hashes
            (fs.flatMap (fun f =>
              (fileContrib m d incremental hs f).hashPairs)) } := by
  induction fs generalizing acc with
  | nil =>
    simp [upsertMany]
  | cons f fs ih =>
    rw [List.foldl_cons, ih]
    simp only [List.flatMap_cons, List.map_cons, List.sum_cons, applyC]
    have hup : upsertMany (upsertMany acc.file_hashes
        (fileContrib m d incremental hs f).hashPairs)
        (fs.flatMap (fun g => (fileContrib m d incremental hs g).hashPairs))
        = upsertMany acc.file_hashes
          ((fileContrib m d incremental hs f).hashPairs
            ++ fs.flatMap (fun g =>
              (fileContrib m d incremental hs g).hashPairs)) := by
      unfold upsertMany
      rw [List.foldl_append]
    rw [hup]
    simp [List.append_assoc, Nat.add_assoc]

/-- The aggregate a walk over good files produces: the concatenation (or
sum) of the per-file contributions, in walk order. -/
def walkOut (m : Matcher) (d : Directory) (incremental : Bool)
    (hs : List (Str × Str)) : WalkResult :=
  { nodes := d.files.flatMap (fun f =>
      (fileContrib m d incremental hs f).nodes)
    edges := d.files.flatMap (fun f =>
      (fileContrib m d incremental hs f).edges)
    files_processed := (d.files.map (fun f =>
      (fileContrib m d incremental hs f).processed)).sum
    files_skipped := (d.files.map (fun f =>
      (fileContrib m d incremental hs f).skipped)).sum
    errors := d.files.flatMap (fun f =>
      (fileContrib m d incremental hs f).errors)
    file_hashes := upsertMany []
      (d.files.flatMap (fun f =>
        (fileContrib m d incremental hs f).hashPairs)) }

/-- Master characterisation of `extract_from_directory` over good files:
the walk succeeds and returns the per-file contribution aggregate. -/
theorem walk_char (m : Matcher) (d : Directory) (incremental : Bool)
    (hs : List (Str × Str)) (hdir : d.isDir = true)
    (hgood : ∀ f ∈ d.files, GoodStep m d incremental f) :
    extract_from_directory m d incremental hs
      = Except.ok (walkOut m d incremental hs) := by
  unfold walkOut
  unfold extract_from_directory
  rw [if_neg (by rw [hdir]; exact fun hc => by cases hc)]
  rw [walk_foldlM m d incremental hs d.files hgood {}]
  rw [walkFold_eq]
  simp

/-- Inversion of `extract_python`: on success the import loop succeeded and
the result is the pure record over its edges. -/
theorem extract_python_ok_elim (m : Matcher) (c p : Str)
    (res : ExtractionResult) (h : extract_python m c p = Except.ok res) :
    ∃ ie, pyImportEdges (make_node_id (chars "file") p none) c
        (m.pyImport c) = Except.ok ie ∧
      res = extract_python_pure m c p ie := by
  unfold extract_python at h
  cases hie : pyImportEdges (make_node_id (chars "file") p none) c
      (m.pyImport c) with
  | error e => rw [hie] at h; cases h
  | ok ie =>
    rw [hie] at h
    refine ⟨ie, rfl, ?_⟩
    cases h
    rfl

/-- Every edge built by the Python import loop is an `imports` edge from
the file node with default confidence. -/
theorem pyImportEdges_mem (fromId c : Str)
    (ms : List (Nat × Option Str × Str)) (es : List CodeEdge)
    (h : pyImportEdges fromId c ms = Except.ok es) (e : CodeEdge)
    (he : e ∈ es) :
    e.from_id = fromId ∧ e.kind = chars "imports" ∧ e.confidence = 1 := by
  induction ms generalizing es with
  | nil =>
    rw [pyImportEdges] at h
    cases h
    cases he
  | cons x t ih =>
    rw [pyImportEdges] at h
    cases htgt : pyImportTarget x.2.1 x.2.2 with
    | error msg => rw [htgt] at h; cases h
    | ok target =>
      rw [htgt] at h
      cases hrest : pyImportEdges fromId c t with
      | error msg => rw [hrest] at h; cases h
      | ok rest =>
        rw [hrest] at h
        cases h
        rcases List.mem_cons.mp he with rfl | he2
        · exact ⟨rfl, rfl, rfl⟩
        · exact ih rest hrest he2

/-- Inversion of `extract_from_file` for a clean result: the file existed,
was readable and decodable, and the result came from the language
extractor selected by the path's extension. -/
theorem extract_clean_cases (m : Matcher) (path : Str) (f : SrcFile)
    (res : ExtractionResult)
    (h : extract_from_file m path f = Except.ok res)
    (herr : res.errors = []) :
    f.fsExists = true ∧ f.readable = true ∧ f.decodable = true ∧
    (((detect_language path = some Lang.typescript ∨
        detect_language path = some Lang.javascript) ∧
      res = extract_typescript m f.content path) ∨
     (detect_language path = some Lang.python ∧
      extract_python m f.content path = Except.ok res)) := by
  unfold extract_from_file at h
  by_cases hex : f.fsExists = false
  · rw [if_pos hex] at h
    cases h
    cases herr
  · rw [if_neg hex] at h
    have hex2 : f.fsExists = true := by
      cases hfe : f.fsExists
      · exact absurd hfe hex
      · rfl
    cases hlang : detect_language path with
    | none => rw [hlang] at h; simp only [] at h; cases h; cases herr
    | some lang =>
      rw [hlang] at h
      simp only [] at h
      by_cases hrd : f.readable = false
      · rw [if_pos hrd] at h; cases h; cases herr
      · rw [if_neg hrd] at h
        have hrd2 : f.readable = true := by
          cases hfr : f.readable
          · exact absurd hfr hrd
          · rfl
        by_cases hdec : f.decodable = false
        · rw [if_pos hdec] at h; cases h; cases herr
        · rw [if_neg hdec] at h
          have hdec2 : f.decodable = true := by
            cases hfd : f.decodable
            · exact absurd hfd hdec
            · rfl
          refine ⟨hex2, hrd2, hdec2, ?_⟩
          cases lang with
          | typescript =>
            cases h
            exact Or.inl ⟨Or.inl rfl, rfl⟩
          | javascript =>
            cases h
            exact Or.inl ⟨Or.inr rfl, rfl⟩
          | python =>
            exact Or.inr ⟨rfl, h⟩
          | go => cases h; cases herr

/-- Every node extracted from a TypeScript file carries that file's path. -/
theorem extract_typescript_node_path (m : Matcher) (c p : Str) :
    ∀ n ∈ (extract_typescript m c p).nodes, n.file_path = p := by
  intro n hn
  unfold extract_typescript at hn
  simp only [] at hn
  rcases List.mem_cons.mp hn with rfl | hn2
  · rfl
  · simp only [List.mem_append] at hn2
    rcases hn2 with (((h | h) | h) | h) | h <;>
      (rcases List.mem_map.mp h with ⟨x, hx, rfl⟩; rfl)

/-- Every node built by `extract_python_pure` carries the file's path. -/
theorem extract_python_node_path (m : Matcher) (c p : Str)
    (ie : List CodeEdge) :
    ∀ n ∈ (extract_python_pure m c p ie).nodes, n.file_path = p := by
  intro n hn
  unfold extract_python_pure at hn
  simp only [] at hn
  rcases List.mem_cons.mp hn with rfl | hn2
  · rfl
  · simp only [List.mem_append] at hn2
    rcases hn2 with (h | h) | h <;>
      (rcases List.mem_map.mp h with ⟨x, hx, rfl⟩; rfl)

/-- The only `file`-kind node of a TypeScript extraction is the file node;
its path is the extracted path. -/
theorem extract_typescript_processed (m : Matcher) (c p : Str) :
    ((extract_typescript m c p).nodes.filter
      (fun n => n.kind = chars "file")).map (fun n => n.file_path) = [p] := by
  unfold extract_typescript
  simp only []
  rw [List.filter_cons_of_pos (by simp), List.map_cons]
  congr 1
  refine Eq.trans (congrArg (List.map (fun n : CodeNode => n.file_path))
    (List.filter_eq_nil_iff.mpr ?_)) rfl
  intro a ha
  simp only [List.mem_append] at ha
  rcases ha with (((h | h) | h) | h) | h <;>
    (rcases List.mem_map.mp h with ⟨x, hx, rfl⟩; dsimp only []; decide)

/-- The only `file`-kind node of a Python extraction is the file node; its
path is the extracted path. -/
theorem extract_python_processed (m : Matcher) (c p : Str)
    (ie : List CodeEdge) :
    (((extract_python_pure m c p ie).nodes).filter
      (fun n => n.kind = chars "file")).map (fun n => n.file_path) = [p] := by
  unfold extract_python_pure
  simp only []
  rw [List.filter_cons_of_pos (by simp), List.map_cons]
  congr 1
  refine Eq.trans (congrArg (List.map (fun n : CodeNode => n.file_path))
    (List.filter_eq_nil_iff.mpr ?_)) rfl
  intro a ha
  simp only [List.mem_append] at ha
  rcases ha with (h | h) | h <;>
    (rcases List.mem_map.mp h with ⟨x, hx, rfl⟩; dsimp only []; decide)

/-- The TypeScript extraction's file hash is the content digest. -/
theorem extract_typescript_file_hash (m : Matcher) (c p : Str) :
    (extract_typescript m c p).file_hash = md5 c := rfl

/-- Edge facts for the TypeScript extractor: `extends`/`implements` edges
carry confidence 0.8, `defines` edges confidence 1.0, and every edge leaves
from a node of the same extraction. -/
theorem extract_typescript_edge_facts (m : Matcher) (c p : Str) :
    ∀ e ∈ (extract_typescript m c p).edges,
      ((e.kind = chars "extends" ∨ e.kind = chars "implements") →
        e.confidence = 8/10) ∧
      (e.kind = chars "defines" → e.confidence = 1) ∧
      e.from_id ∈ (extract_typescript m c p).nodes.map
        (fun n : CodeNode => n.id) := by
  intro e he
  have hfileMem : make_node_id (chars "file") p none ∈
      (extract_typescript m c p).nodes.map (fun n : CodeNode => n.id) := by
    unfold extract_typescript
    simp only []
    exact List.mem_map_of_mem _ (List.mem_cons_self _ _)
  unfold extract_typescript at he
  simp only [] at he
  simp only [List.mem_append] at he
  rcases he with ((((h | h) | h) | h) | h) | h
  · rcases List.mem_map.mp h with ⟨x, hx, rfl⟩
    exact ⟨fun hk => by dsimp only [] at hk; exact absurd hk (by decide),
      fun hk => by dsimp only [] at hk; exact absurd hk (by decide),
      hfileMem⟩
  · rcases List.mem_map.mp h with ⟨x, hx, rfl⟩
    exact ⟨fun hk => by dsimp only [] at hk; exact absurd hk (by decide),
      fun hk => rfl, hfileMem⟩
  · rcases List.mem_map.mp h with ⟨x, hx, rfl⟩
    exact ⟨fun hk => by dsimp only [] at hk; exact absurd hk (by decide),
      fun hk => rfl, hfileMem⟩
  · rcases List.mem_flatMap.mp h with ⟨x, hx, hin⟩
    have hcls : make_node_id (chars "class") p (some x.2.1) ∈
        (extract_typescript m c p).nodes.map (fun n : CodeNode => n.id) := by
      unfold extract_typescript
      simp only []
      refine List.mem_map.mpr ⟨_, List.mem_cons_of_mem _
        (List.mem_append_left _ (List.mem_append_left _
          (List.mem_append_right _ (List.mem_map_of_mem _ hx)))), rfl⟩
    rcases List.mem_cons.mp hin with rfl | hin2
    · exact ⟨fun hk => by dsimp only [] at hk; exact absurd hk (by decide),
        fun hk => rfl, hfileMem⟩
    · simp only [List.mem_append] at hin2
      rcases hin2 with h2 | h2
      · cases hopt : x.2.2.1 with
        | none =>
          rw [hopt] at h2
          simp only [] at h2
          cases h2
        | some ext =>
          rw [hopt] at h2
          simp only [] at h2
          rcases List.mem_singleton.mp h2 with rfl
          exact ⟨fun _ => rfl,
            fun hk => by dsimp only [] at hk; exact absurd hk (by decide),
            hcls⟩
      · cases hopt : x.2.2.2 with
        | none =>
          rw [hopt] at h2
          simp only [] at h2
          cases h2
        | some impl =>
          rw [hopt] at h2
          simp only [] at h2
          rcases List.mem_filterMap.mp h2 with ⟨raw, hraw, hsome⟩
          by_cases hemp : (strip raw).isEmpty = true
          · rw [if_pos hemp] at hsome
            cases hsome
          · rw [if_neg hemp] at hsome
            cases hsome
            exact ⟨fun _ => rfl,
              fun hk => by dsimp only [] at hk; exact absurd hk (by decide),
              hcls⟩
  · rcases List.mem_map.mp h with ⟨x, hx, rfl⟩
    exact ⟨fun hk => by dsimp only [] at hk; exact absurd hk (by decide),
      fun hk => rfl, hfileMem⟩
  · rcases List.mem_map.mp h with ⟨x, hx, rfl⟩
    exact ⟨fun hk => by dsimp only [] at hk; exact absurd hk (by decide),
      fun hk => rfl, hfileMem⟩

/-- Edge facts for the Python extractor, given the import loop's output. -/
theorem extract_python_edge_facts (m : Matcher) (c p : Str)
    (ie : List CodeEdge)
    (hie : pyImportEdges (make_node_id (chars "file") p none) c
      (m.pyImport c) = Except.ok ie) :
    ∀ e ∈ (extract_python_pure m c p ie).edges,
      ((e.kind = chars "extends" ∨ e.kind = chars "implements") →
        e.confidence = 8/10) ∧
      (e.kind = chars "defines" → e.confidence = 1) ∧
      e.from_id ∈ (extract_python_pure m c p ie).nodes.map
        (fun n : CodeNode => n.id) := by
  intro e he
  have hfileMem : make_node_id (chars "file") p none ∈
      (extract_python_pure m c p ie).nodes.map (fun n : CodeNode => n.id) := by
    unfold extract_python_pure
    simp only []
    exact List.mem_map_of_mem _ (List.mem_cons_self _ _)
  unfold extract_python_pure at he
  simp only [] at he
  simp only [List.mem_append] at he
  rcases he with ((h | h) | h) | h
  · rcases pyImportEdges_mem _ _ _ _ hie e h with ⟨hfrom, hkind, hconf⟩
    refine ⟨fun hk => ?_, fun hk => ?_, ?_⟩
    · rw [hkind] at hk
      exact absurd hk (by decide)
    · rw [hkind] at hk
      exact absurd hk (by decide)
    · rw [hfrom]
      exact hfileMem
  · rcases List.mem_map.mp h with ⟨x, hx, rfl⟩
    exact ⟨fun hk => by dsimp only [] at hk; exact absurd hk (by decide),
      fun hk => rfl, hfileMem⟩
  · rcases List.mem_flatMap.mp h with ⟨x, hx, hin⟩
    have hcls : make_node_id (chars "class") p (some x.2.1) ∈
        (extract_python_pure m c p ie).nodes.map
          (fun n : CodeNode => n.id) := by
      unfold extract_python_pure
      simp only []
      refine List.mem_map.mpr ⟨_, List.mem_cons_of_mem _
        (List.mem_append_left _
          (List.mem_append_right _ (List.mem_map_of_mem _ hx))), rfl⟩
    rcases List.mem_cons.mp hin with rfl | hin2
    · exact ⟨fun hk => by dsimp only [] at hk; exact absurd hk (by decide),
        fun hk => rfl, hfileMem⟩
    · cases hopt : x.2.2 with
      | none =>
        rw [hopt] at hin2
        simp only [] at hin2
        cases hin2
      | some bases =>
        rw [hopt] at hin2
        simp only [] at hin2
        rcases List.mem_filterMap.mp hin2 with ⟨raw, hraw, hsome⟩
        by_cases hemp : (strip raw).isEmpty = true ∨ strip raw = chars "object"
        · rw [if_pos hemp] at hsome
          cases hsome
        · rw [if_neg hemp] at hsome
          cases hsome
          exact ⟨fun _ => rfl,
            fun hk => by dsimp only [] at hk; exact absurd hk (by decide),
            hcls⟩
  · rcases List.mem_map.mp h with ⟨x, hx, rfl⟩
    exact ⟨fun hk => by dsimp only [] at hk; exact absurd hk (by decide),
      fun hk => rfl, hfileMem⟩

/-- C8: for every extraction result, every `extends` and every `implements`
edge produced from a class/interface declaration's inheritance clause has
confidence 0.8, and every `defines` edge has confidence 1.0. -/
theorem edge_confidence_values (m : Matcher) (path : Str) (f : SrcFile)
    (res : ExtractionResult)
    (h : extract_from_file m path f = Except.ok res) :
    ∀ e ∈ res.edges,
      ((e.kind = chars "extends" ∨ e.kind = chars "implements") →
        e.confidence = 8/10) ∧
      (e.kind = chars "defines" → e.confidence = 1) := by
  intro e he
  unfold extract_from_file at h
  by_cases hex : f.fsExists = false
  · rw [if_pos hex] at h; cases h; cases he
  · rw [if_neg hex] at h
    cases hlang : detect_language path with
    | none => rw [hlang] at h; simp only [] at h; cases h; cases he
    | some lang =>
      rw [hlang] at h
      simp only [] at h
      by_cases hrd : f.readable = false
      · rw [if_pos hrd] at h; cases h; cases he
      · rw [if_neg hrd] at h
        by_cases hdec : f.decodable = false
        · rw [if_pos hdec] at h; cases h; cases he
        · rw [if_neg hdec] at h
          cases lang with
          | typescript =>
            cases h
            exact ⟨(extract_typescript_edge_facts m f.content path e he).1,
              (extract_typescript_edge_facts m f.content path e he).2.1⟩
          | javascript =>
            cases h
            exact ⟨(extract_typescript_edge_facts m f.content path e he).1,
              (extract_typescript_edge_facts m f.content path e he).2.1⟩
          | python =>
            rcases extract_python_ok_elim _ _ _ _ h with ⟨ie, hie, rfl⟩
            exact
              ⟨(extract_python_edge_facts m f.content path ie hie e he).1,
               (extract_python_edge_facts m f.content path ie hie e he).2.1⟩
          | go => cases h; cases he

/-- C9 (amended): for a nonexistent file, an unsupported extension, or an
undecodable file, `extract_from_file` returns an `ExtractionResult` with a
non-empty `errors` list and empty `nodes`/`edges` without raising.  (The
original claim's "never raises past its boundary" fails for some decodable
Python files — see the counterexample.) -/
theorem extract_error_result (m : Matcher) (path : Str) (f : SrcFile)
    (h : f.fsExists = false ∨ detect_language path = none ∨
      (f.readable = true ∧ f.decodable = false)) :
    ∃ res, extract_from_file m path f = Except.ok res ∧
      res.errors ≠ [] ∧ res.nodes = [] ∧ res.edges = [] := by
  unfold extract_from_file
  by_cases hex : f.fsExists = false
  · rw [if_pos hex]
    exact ⟨_, rfl, by simp, rfl, rfl⟩
  · rw [if_neg hex]
    cases hlang : detect_language path with
    | none =>
      simp only []
      exact ⟨_, rfl, by simp, rfl, rfl⟩
    | some lang =>
      simp only []
      by_cases hrd : f.readable = false
      · rw [if_pos hrd]
        exact ⟨_, rfl, by simp, rfl, rfl⟩
      · rw [if_neg hrd]
        have hdec : f.decodable = false := by
          rcases h with h1 | h1 | h1
          · exact absurd h1 hex
          · rw [hlang] at h1; cases h1
          · exact h1.2
        rw [if_pos hdec]
        exact ⟨_, rfl, by simp, rfl, rfl⟩

/-- Witness for `extract_error_result`: a Python file whose bytes all three
encodings fail to decode. -/
theorem extract_error_result_witness :
    ∃ res, extract_from_file
        { tsImport := fun _ => [], tsExportFunction := fun _ => []
          tsExportConstArrow := fun _ => [], tsClass := fun _ => []
          tsInterface := fun _ => [], tsType := fun _ => []
          pyImport := fun _ => [], pyFunction := fun _ => []
          pyClass := fun _ => [], pyConst := fun _ => [] }
        (chars "d/bad.py")
        { relPath := chars "bad.py", content := [], decodable := false }
      = Except.ok res ∧ res.errors ≠ [] ∧ res.nodes = [] ∧ res.edges = [] :=
  extract_error_result _ (chars "d/bad.py")
    { relPath := chars "bad.py", content := [], decodable := false }
    (Or.inr (Or.inr ⟨rfl, rfl⟩))

/-- Model of `re.finditer` over the concrete file contents used in the
witnesses and counterexamples below: the match lists are hand-traces of
`TS_PATTERNS`/`PY_PATTERNS` on exactly those contents (offset 0, captured
groups as the regexes produce them), and empty on everything else. -/
def regexModel : Matcher :=
  { tsImport := fun _ => []
    tsExportFunction := fun _ => []
    tsExportConstArrow := fun _ => []
    tsClass := fun _ => []
    tsInterface := fun _ => []
    tsType := fun _ => []
    pyImport := fun c =>
      if c = chars "import os" then [(0, none, chars "os")]
      else if c = chars "import sys" then [(0, none, chars "sys")]
      else if c = chars "import ,x" then [(0, none, chars ",x")]
      else []
    pyFunction := fun _ => []
    pyClass := fun c =>
      if c = chars "class A(B):" then [(0, chars "A", some (chars "B"))]
      else []
    pyConst := fun _ => [] }

/-- C9 counterexample: on the existing, readable, UTF-8 Python file
`d/x.py` whose text is the single line `import ,x`, the source's
`imports.split(',')[0].strip().split()[0]` raises `IndexError` (the first
comma-segment strips to the empty string), and nothing catches it:
`extract_from_file` raises instead of returning an error result. -/
theorem extract_boundary_counterexample :
    extract_from_file regexModel (chars "d/x.py")
      { relPath := chars "x.py", content := chars "import ,x" }
      = Except.error (chars "IndexError: list index out of range") := by
  rfl

/-- The store an error-free sync commits, given the walk result. -/
def mergedDB (project : Str) (r : WalkResult) (db : DB) : DB :=
  { nodes := (mergeNodes project r.nodes db.nodes).1
    edges := (mergeEdges project r.edges
      (deleteEdgesForFiles project (processedFilePaths r) db.edges)).1
    hashes := mergeHashes project r.file_hashes r.nodes r.edges db.hashes }

/-- The result dict an error-free sync returns, given the walk result. -/
def mergedRes (project : Str) (r : WalkResult) (db : DB) : SyncResult :=
  { nodes_added := (mergeNodes project r.nodes db.nodes).2.2
    nodes_updated := 0
    edges_added := (mergeEdges project r.edges
      (deleteEdgesForFiles project (processedFilePaths r) db.edges)).2
    files_processed := r.files_processed
    files_skipped := r.files_skipped
    errors := [] }

/-- Unfolding of a successful, error-free sync in terms of the walk
result. -/
theorem sync_ok_of_walk (m : Matcher) (db : DB) (project : Str)
    (d : Directory) (incremental : Bool) (r : WalkResult)
    (hw : extract_from_directory m d incremental
      (existingHashes db project incremental) = Except.ok r)
    (herr : r.errors = []) :
    sync_from_directory m db project d incremental
      = Except.ok (mergedDB project r db, mergedRes project r db) := by
  unfold mergedDB mergedRes
  unfold sync_from_directory
  rw [hw]
  show (if r.errors.isEmpty = true then _ else _) = _
  rw [if_pos (by rw [herr]; rfl : r.errors.isEmpty = true)]
  rfl

/-- Unfolding of a sync whose walk reported extraction errors: nothing is
written and the zero-counter result carries the error list. -/
theorem sync_err_of_walk (m : Matcher) (db : DB) (project : Str)
    (d : Directory) (incremental : Bool) (r : WalkResult)
    (hw : extract_from_directory m d incremental
      (existingHashes db project incremental) = Except.ok r)
    (herr : r.errors ≠ []) :
    sync_from_directory m db project d incremental
      = Except.ok
        (db,
         { nodes_added := 0, nodes_updated := 0, edges_added := 0
           files_processed := 0, files_skipped := 0
           errors := r.errors }) := by
  unfold sync_from_directory
  rw [hw]
  show (if r.errors.isEmpty = true then _ else _) = _
  rw [if_neg (by
    intro hc
    exact herr (List.isEmpty_iff.mp hc))]
  rfl

/-- C10: a sync that completes without errors always reports
`nodes_updated = 0` (the `IntegrityError` handler is unreachable) and
`nodes_added` equal to the total number of extracted nodes, because the
`conn.total_changes > 0` test is cumulative over the connection. -/
theorem sync_counter_semantics (m : Matcher) (db : DB) (project : Str)
    (d : Directory) (incremental : Bool) (r : WalkResult)
    (hw : extract_from_directory m d incremental
      (existingHashes db project incremental) = Except.ok r)
    (herr : r.errors = []) :
    ∃ db2 res, sync_from_directory m db project d incremental
        = Except.ok (db2, res) ∧
      res.nodes_updated = 0 ∧ res.nodes_added = r.nodes.length := by
  refine ⟨_, _, sync_ok_of_walk m db project d incremental r hw herr,
    rfl, ?_⟩
  exact mergeNodes_added project r.nodes db.nodes

/-- C1: edge replacement on resync.  After an error-free
`sync_from_directory`, for every reprocessed file and every stored edge of
the project whose `from_id` is a `make_node_id` of that file, the edge's
`(from_id, to_id, kind)` triple is among the currently extracted edges — in
particular, an edge removed from the file's source (hence absent from the
extraction) is no longer stored. -/
theorem sync_edge_replacement (m : Matcher) (db : DB) (project : Str)
    (d : Directory) (incremental : Bool) (r : WalkResult) (fp : Str)
    (hw : extract_from_directory m d incremental
      (existingHashes db project incremental) = Except.ok r)
    (herr : r.errors = [])
    (hfp : fp ∈ processedFilePaths r) :
    ∃ db2 res, sync_from_directory m db project d incremental
        = Except.ok (db2, res) ∧
      ∀ e ∈ db2.edges, e.project = project →
        (∃ k n, e.from_id = make_node_id k fp n) →
        ∃ e2 ∈ r.edges, e2.from_id = e.from_id ∧ e2.to_id = e.to_id ∧
          e2.kind = e.kind := by
  refine ⟨_, _, sync_ok_of_walk m db project d incremental r hw herr, ?_⟩
  intro e he hproj hex
  rcases hex with ⟨k, n, hfrom⟩
  rcases mergeEdges_elim project r.edges _ e he with hold | ⟨e2, he2, rfl⟩
  · exfalso
    have hch := (mem_deleteEdgesForFiles project (processedFilePaths r)
      db.edges e).mp hold
    exact hch.2 fp hfp
      ⟨hproj, by rw [hfrom]; exact make_node_id_matches k fp n⟩
  · exact ⟨e2, he2, rfl, rfl, rfl⟩

/-- Concrete one-file project for the sync witnesses: `d/a.py` containing
`import os`. -/
def cDir1 : Directory :=
  { path := chars "d"
    files := [{ relPath := chars "a.py", content := chars "import os" }] }

/-- Concrete prior store for the C1 witness: a stale `imports` edge from
`file.d/a.py` to `module.old` (the import no longer in the source). -/
def cDb1 : DB :=
  { edges := [{ project := chars "pr", from_id := chars "file.d/a.py"
                to_id := chars "module.old", kind := chars "imports"
                line_number := some 1, confidence := 1 }] }

/-- The walk result of `cDir1` under `regexModel`. -/
def cR1 : WalkResult :=
  { nodes := [{ id := chars "file.d/a.py", kind := chars "file"
                name := chars "a.py", file_path := chars "d/a.py"
                language := some (chars "python")
                hash := some (chars "import os") }]
    edges := [{ from_id := chars "file.d/a.py", to_id := chars "module.os"
                kind := chars "imports", line_number := some 1
                confidence := 1 }]
    files_processed := 1
    files_skipped := 0
    errors := []
    file_hashes := [(chars "a.py", chars "import os")] }

/-- Witness for `sync_edge_replacement` on the concrete project: after the
resync of `d/a.py`, any stored edge of project `pr` rooted at a declaration
of `d/a.py` is one of the freshly extracted edges. -/
theorem sync_edge_replacement_witness :
    ∃ db2 res, sync_from_directory regexModel cDb1 (chars "pr") cDir1 true
        = Except.ok (db2, res) ∧
      ∀ e ∈ db2.edges, e.project = chars "pr" →
        (∃ k n, e.from_id = make_node_id k (chars "d/a.py") n) →
        ∃ e2 ∈ cR1.edges, e2.from_id = e.from_id ∧ e2.to_id = e.to_id ∧
          e2.kind = e.kind :=
  sync_edge_replacement regexModel cDb1 (chars "pr") cDir1 true cR1
    (chars "d/a.py") (by rfl) rfl (by decide)

/-- A file the walk handles without raising and whose extraction reports no
errors. -/
def CleanStep (m : Matcher) (d : Directory) (incremental : Bool)
    (f : SrcFile) : Prop :=
  fileEligible f = true →
    (incremental = true → f.fsExists = true ∧ f.readable = true) ∧
    ∃ res, extract_from_file m (dirFullPath d f) f = Except.ok res ∧
      res.errors = []

theorem cleanStep_goodStep (m : Matcher) (d : Directory)
    (incremental : Bool) (f : SrcFile)
    (h : CleanStep m d incremental f) : GoodStep m d incremental f :=
  fun hel => ⟨(h hel).1, (h hel).2.choose, (h hel).2.choose_spec.1⟩

/-- Contribution of an ineligible-extension file: nothing. -/
theorem fileContrib_inel (m : Matcher) (d : Directory) (incremental : Bool)
    (hs : List (Str × Str)) (f : SrcFile)
    (h : fileEligible f = false) :
    fileContrib m d incremental hs f = {} := by
  unfold fileContrib
  rw [if_pos h]

/-- Contribution of an unchanged file in incremental mode: one skip and the
propagated hash. -/
theorem fileContrib_skip (m : Matcher) (d : Directory)
    (hs : List (Str × Str)) (f : SrcFile)
    (helig : fileEligible f = true)
    (hlk : lookupA hs f.relPath = some (md5 f.content)) :
    fileContrib m d true hs f
      = { skipped := 1, hashPairs := [(f.relPath, md5 f.content)] } := by
  unfold fileContrib
  rw [if_neg (by simp [helig]), if_pos ⟨rfl, hlk⟩]

/-- Contribution of a processed file whose extraction is clean: its nodes,
edges and new hash. -/
theorem fileContrib_process (m : Matcher) (d : Directory)
    (incremental : Bool) (hs : List (Str × Str)) (f : SrcFile)
    (res : ExtractionResult) (helig : fileEligible f = true)
    (hnoskip : ¬(incremental = true ∧
      lookupA hs f.relPath = some (md5 f.content)))
    (hres : extract_from_file m (dirFullPath d f) f = Except.ok res)
    (herr : res.errors = []) :
    fileContrib m d incremental hs f
      = { nodes := res.nodes, edges := res.edges, processed := 1
          hashPairs := [(f.relPath, res.file_hash)] } := by
  unfold fileContrib
  rw [if_neg (by simp [helig]), if_neg hnoskip, hres]
  simp only []
  rw [if_pos (by rw [herr]; rfl)]

/-- Contribution of a processed file whose extraction reported errors:
just those errors. -/
theorem fileContrib_error (m : Matcher) (d : Directory)
    (incremental : Bool) (hs : List (Str × Str)) (f : SrcFile)
    (res : ExtractionResult) (helig : fileEligible f = true)
    (hnoskip : ¬(incremental = true ∧
      lookupA hs f.relPath = some (md5 f.content)))
    (hres : extract_from_file m (dirFullPath d f) f = Except.ok res)
    (herr : res.errors ≠ []) :
    fileContrib m d incremental hs f = { errors := res.errors } := by
  unfold fileContrib
  rw [if_neg (by simp [helig]), if_neg hnoskip, hres]
  simp only []
  rw [if_neg (fun hc => herr (List.isEmpty_iff.mp hc))]

/-- A clean file contributes no errors to the walk. -/
theorem fileContrib_errors_nil (m : Matcher) (d : Directory)
    (incremental : Bool) (hs : List (Str × Str)) (f : SrcFile)
    (h : CleanStep m d incremental f) :
    (fileContrib m d incremental hs f).errors = [] := by
  by_cases helig : fileEligible f = true
  · rcases h helig with ⟨hhash, res, hres, herr⟩
    by_cases hskip : incremental = true ∧
        lookupA hs f.relPath = some (md5 f.content)
    · rcases hskip with ⟨hinc, hlk⟩
      subst hinc
      rw [fileContrib_skip m d hs f helig hlk]
    · rw [fileContrib_process m d incremental hs f res helig hskip hres herr]
  · rw [fileContrib_inel m d incremental hs f (Bool.eq_false_iff.mpr helig)]

/-- C3 (amended): with exactly one failing file among otherwise clean
files, the walk still aggregates the other files' nodes and records exactly
the failing file's errors, but `sync_from_directory` — seeing a non-empty
error list — aborts the merge entirely: the store is returned unchanged
with zero counters.  (The original claim's "still merges the other N−1
files' contributions" is what fails — see the counterexample.) -/
theorem sync_error_aborts_merge (m : Matcher) (db : DB) (project : Str)
    (d : Directory) (incremental : Bool) (l1 l2 : List SrcFile)
    (bad : SrcFile) (resBad : ExtractionResult)
    (hdir : d.isDir = true)
    (hfiles : d.files = l1 ++ bad :: l2)
    (hclean : ∀ f ∈ l1 ++ l2, CleanStep m d incremental f)
    (helig : fileEligible bad = true)
    (hhash : incremental = true →
      bad.fsExists = true ∧ bad.readable = true)
    (hnoskip : ¬(incremental = true ∧
      lookupA (existingHashes db project incremental) bad.relPath
        = some (md5 bad.content)))
    (hres : extract_from_file m (dirFullPath d bad) bad = Except.ok resBad)
    (herr : resBad.errors ≠ []) :
    ∃ r, extract_from_directory m d incremental
        (existingHashes db project incremental) = Except.ok r ∧
      r.errors = resBad.errors ∧
      r.nodes = (l1 ++ l2).flatMap (fun f =>
        (fileContrib m d incremental
          (existingHashes db project incremental) f).nodes) ∧
      sync_from_directory m db project d incremental
        = Except.ok
          (db,
           { nodes_added := 0, nodes_updated := 0, edges_added := 0
             files_processed := 0, files_skipped := 0
             errors := r.errors }) := by
  have hgood : ∀ f ∈ d.files, GoodStep m d incremental f := by
    intro f hf
    rw [hfiles] at hf
    simp only [List.mem_append, List.mem_cons] at hf
    rcases hf with h1 | h1 | h1
    · exact cleanStep_goodStep m d incremental f
        (hclean f (List.mem_append_left _ h1))
    · subst h1
      exact fun hel => ⟨hhash, resBad, hres⟩
    · exact cleanStep_goodStep m d incremental f
        (hclean f (List.mem_append_right _ h1))
  have hw := walk_char m d incremental
    (existingHashes db project incremental) hdir hgood
  set hs0 := existingHashes db project incremental with hhs0
  have hbadC : fileContrib m d incremental hs0 bad
      = { errors := resBad.errors } :=
    fileContrib_error m d incremental hs0 bad resBad helig hnoskip hres herr
  have herrs : d.files.flatMap (fun f =>
      (fileContrib m d incremental hs0 f).errors) = resBad.errors := by
    rw [hfiles, List.flatMap_append, List.flatMap_cons, hbadC]
    rw [List.flatMap_eq_nil_iff.mpr (fun f hf =>
      fileContrib_errors_nil m d incremental hs0 f
        (hclean f (List.mem_append_left _ hf)))]
    rw [List.flatMap_eq_nil_iff.mpr (fun f hf =>
      fileContrib_errors_nil m d incremental hs0 f
        (hclean f (List.mem_append_right _ hf)))]
    simp
  have hnodes : d.files.flatMap (fun f =>
      (fileContrib m d incremental hs0 f).nodes)
      = (l1 ++ l2).flatMap (fun f =>
        (fileContrib m d incremental hs0 f).nodes) := by
    rw [hfiles, List.flatMap_append, List.flatMap_cons, hbadC,
      List.flatMap_append]
    simp
  refine ⟨_, hw, ?_, ?_, ?_⟩
  · exact herrs
  · exact hnodes
  · refine sync_err_of_walk m db project d incremental _ hw ?_
    show d.files.flatMap (fun f =>
      (fileContrib m d incremental hs0 f).errors) ≠ []
    rw [herrs]
    exact herr

/-- Two-file project for C3: a clean `a.py` plus `g.go`, whose supported
extension maps to the unimplemented Go extractor (extractor.py:610), a
per-file extraction error that is reachable on a real filesystem. -/
def cDir3 : Directory :=
  { path := chars "d"
    files := [{ relPath := chars "a.py", content := chars "import os" },
              { relPath := chars "g.go"
                content := chars "package main" }] }

/-- C3 counterexample: one failing file among two — `g.go` extracts to the
reachable error result `Extractor not implemented for: go`.  The claim says
the other file's nodes and edges are still merged; instead
`sync_from_directory` returns the store unchanged (here: still completely
empty — no node of `d/a.py` was stored) with zero counters next to the
single error. -/
theorem sync_error_abort_counterexample :
    sync_from_directory regexModel {} (chars "pr") cDir3 true
      = Except.ok
        ({},
         { nodes_added := 0, nodes_updated := 0, edges_added := 0
           files_processed := 0, files_skipped := 0
           errors := [chars "Extractor not implemented for: go"] }) := by
  rfl

/-- Witness for `sync_error_aborts_merge` on the concrete two-file
project. -/
theorem sync_error_aborts_merge_witness :
    ∃ r, extract_from_directory regexModel cDir3 true
        (existingHashes {} (chars "pr") true) = Except.ok r ∧
      r.errors = [chars "Extractor not implemented for: go"] ∧
      r.nodes = ([{ relPath := chars "a.py", content := chars "import os" }]
        : List SrcFile).flatMap (fun f =>
          (fileContrib regexModel cDir3 true
            (existingHashes {} (chars "pr") true) f).nodes) ∧
      sync_from_directory regexModel {} (chars "pr") cDir3 true
        = Except.ok
          ({},
           { nodes_added := 0, nodes_updated := 0, edges_added := 0
             files_processed := 0, files_skipped := 0
             errors := r.errors }) := by
  have h := sync_error_aborts_merge regexModel {} (chars "pr") cDir3 true
    [{ relPath := chars "a.py", content := chars "import os" }] []
    { relPath := chars "g.go", content := chars "package main" }
    { file_path := chars "d/g.go"
      language := chars "go"
      errors := [chars "Extractor not implemented for: go"] }
    rfl rfl
    (by
      intro f hf
      simp only [List.append_nil, List.mem_singleton] at hf
      subst hf
      intro hel
      exact ⟨fun _ => ⟨rfl, rfl⟩, _, rfl, rfl⟩)
    rfl
    (fun _ => ⟨rfl, rfl⟩)
    (by decide)
    rfl
    (by decide)
  simpa using h

/-- A non-incremental walk step never skips a file. -/
theorem walkStep_false_skipped (m : Matcher) (d : Directory)
    (hs : List (Str × Str)) (acc : WalkResult) (f : SrcFile)
    (acc2 : WalkResult) (h : walkStep m d false hs acc f = Except.ok acc2) :
    acc2.files_skipped = acc.files_skipped := by
  unfold walkStep at h
  simp only [] at h
  by_cases hel : (langOfExt ((extOf f.relPath).map Char.toLower)).isNone
      = true
  · rw [if_pos hel] at h
    cases h
    rfl
  · rw [if_neg hel, if_neg (by simp : ¬(false = true))] at h
    cases hres : extract_from_file m (dirFullPath d f) f with
    | error e => rw [hres] at h; cases h
    | ok res =>
      rw [hres] at h
      replace h : (if res.errors.isEmpty = true then
          (pure { nodes := acc.nodes ++ res.nodes
                  edges := acc.edges ++ res.edges
                  files_processed := acc.files_processed + 1
                  files_skipped := acc.files_skipped
                  errors := acc.errors
                  file_hashes := upsertA acc.file_hashes f.relPath
                    res.file_hash } : Except Str WalkResult)
        else pure { nodes := acc.nodes, edges := acc.edges
                    files_processed := acc.files_processed
                    files_skipped := acc.files_skipped
                    errors := acc.errors ++ res.errors
                    file_hashes := acc.file_hashes })
          = Except.ok acc2 := h
      by_cases herr : res.errors.isEmpty = true
      · rw [if_pos herr] at h
        cases h
        rfl
      · rw [if_neg herr] at h
        cases h
        rfl

/-- A non-incremental walk reports `files_skipped = 0`: every file is
treated as changed. -/
theorem walk_full_no_skip (m : Matcher) (d : Directory)
    (hs : List (Str × Str)) (r : WalkResult)
    (h : extract_from_directory m d false hs = Except.ok r) :
    r.files_skipped = 0 := by
  unfold extract_from_directory at h
  by_cases hdir : d.isDir = false
  · rw [if_pos hdir] at h
    cases h
    rfl
  · rw [if_neg hdir] at h
    suffices hgen : ∀ (fs : List SrcFile) (acc : WalkResult)
        (r2 : WalkResult),
        List.foldlM (walkStep m d false hs) acc fs = Except.ok r2 →
        r2.files_skipped = acc.files_skipped by
      exact hgen d.files {} r h
    intro fs
    induction fs with
    | nil =>
      intro acc r2 h2
      cases h2
      rfl
    | cons f fs ih =>
      intro acc r2 h2
      rw [List.foldlM_cons] at h2
      cases hstep : walkStep m d false hs acc f with
      | error e => rw [hstep] at h2; cases h2
      | ok acc2 =>
        rw [hstep] at h2
        rw [ih acc2 r2 h2]
        exact walkStep_false_skipped m d hs acc f acc2 hstep

/-- C2 (amended): `sync_from_directory(.., incremental := false)` treats
every file as changed (empty prior-hash map, `files_skipped = 0`) and
reprocesses everything, but it does NOT clear prior state: stored node
rows keyed differently from every extracted node survive, as do edges not
matching any processed file's deletion pattern and hash rows of files not
seen by the walk.  Clearing is only performed by the separate
`clear_code_graph`.  (The original claim's "clears all existing
nodes/edges/hashes first" is what fails — see the counterexample.) -/
theorem full_rebuild_no_clear (m : Matcher) (db : DB) (project : Str)
    (d : Directory) (r : WalkResult)
    (hw : extract_from_directory m d false [] = Except.ok r)
    (herr : r.errors = []) :
    ∃ db2 res, sync_from_directory m db project d false
        = Except.ok (db2, res) ∧
      res.files_skipped = 0 ∧
      (∀ row ∈ db.nodes,
        (∀ n ∈ r.nodes, ¬(row.id = n.id ∧ row.project = project)) →
        row ∈ db2.nodes) ∧
      (∀ e ∈ db.edges,
        (∀ fp ∈ processedFilePaths r,
          ¬(e.project = project ∧
            likeMatch (deletePattern fp) e.from_id = true)) →
        e ∈ db2.edges) ∧
      (∀ hrow ∈ db.hashes,
        (∀ pr ∈ r.file_hashes,
          ¬(hrow.project = project ∧ hrow.file_path = pr.1)) →
        hrow ∈ db2.hashes) := by
  refine ⟨_, _, sync_ok_of_walk m db project d false r hw herr, ?_, ?_, ?_, ?_⟩
  · exact walk_full_no_skip m d [] r hw
  · intro row hrow hne
    exact mergeNodes_preserve project r.nodes db.nodes row hrow hne
  · intro e he hne
    exact mergeEdges_preserve project r.edges _ e
      ((mem_deleteEdgesForFiles project (processedFilePaths r)
        db.edges e).mpr ⟨he, hne⟩)
  · intro hrow hmem hne
    exact mergeHashes_preserve project r.file_hashes r.nodes r.edges
      db.hashes hrow hmem hne

/-- Prior store for the C2 counterexample: an orphan node, edge and hash
row for the deleted file `d/old.py` that no longer exists on disk. -/
def cDb2 : DB :=
  { nodes := [{ id := chars "function.d/old.py:gone", project := chars "pr"
                kind := chars "function", name := chars "gone"
                file_path := chars "d/old.py", line_start := 1
                line_end := 1, signature := none
                language := some (chars "python")
                visibility := some (chars "public"), hash := none }]
    edges := [{ project := chars "pr"
                from_id := chars "function.d/old.py:gone"
                to_id := chars "module.os", kind := chars "calls"
                line_number := some 1, confidence := 1 }]
    hashes := [{ project := chars "pr", file_path := chars "old.py"
                 hash := chars "stale", node_count := 2
                 edge_count := 1 }] }

/-- C2 counterexample: a full rebuild (`incremental := false`) of the
one-file project `cDir1` over the store `cDb2` leaves the orphan node row
of the deleted `d/old.py` in place — the claim that no stale node survives
a full rebuild is false, because `sync_from_directory` never clears prior
state. -/
theorem full_rebuild_counterexample :
    (sync_from_directory regexModel cDb2 (chars "pr") cDir1 false).map
      (fun out => decide
        (({ id := chars "function.d/old.py:gone", project := chars "pr"
            kind := chars "function", name := chars "gone"
            file_path := chars "d/old.py", line_start := 1
            line_end := 1, signature := none
            language := some (chars "python")
            visibility := some (chars "public")
            hash := none } : NodeRow) ∈ out.1.nodes))
      = Except.ok true := by
  rfl

/-- Witness for `full_rebuild_no_clear` on the concrete store `cDb2` and
project `cDir1`. -/
theorem full_rebuild_no_clear_witness :
    ∃ db2 res, sync_from_directory regexModel cDb2 (chars "pr") cDir1 false
        = Except.ok (db2, res) ∧
      res.files_skipped = 0 ∧
      (∀ row ∈ cDb2.nodes,
        (∀ n ∈ cR1.nodes, ¬(row.id = n.id ∧ row.project = chars "pr")) →
        row ∈ db2.nodes) ∧
      (∀ e ∈ cDb2.edges,
        (∀ fp ∈ processedFilePaths cR1,
          ¬(e.project = chars "pr" ∧
            likeMatch (deletePattern fp) e.from_id = true)) →
        e ∈ db2.edges) ∧
      (∀ hrow ∈ cDb2.hashes,
        (∀ pr ∈ cR1.file_hashes,
          ¬(hrow.project = chars "pr" ∧ hrow.file_path = pr.1)) →
        hrow ∈ db2.hashes) :=
  full_rebuild_no_clear regexModel cDb2 (chars "pr") cDir1 cR1 (by rfl) rfl

/-- `foldlM` over an append, specialised to `Except`. -/
theorem foldlM_append_except {α β : Type} (g : β → α → Except Str β) :
    ∀ (l1 l2 : List α) (b : β),
      List.foldlM g b (l1 ++ l2)
        = (List.foldlM g b l1) >>= fun b2 => List.foldlM g b2 l2 := by
  intro l1
  induction l1 with
  | nil => intro l2 b; rfl
  | cons a l1 ih =>
    intro l2 b
    rw [List.cons_append, List.foldlM_cons, List.foldlM_cons]
    cases hg : g b a with
    | error e => rfl
    | ok b2 =>
      show List.foldlM g b2 (l1 ++ l2) = _
      rw [ih l2 b2]
      rfl

/-- In incremental mode, `walkStep` on an unreadable (or vanished) eligible
file raises out of the hash computation. -/
theorem walkStep_unreadable (m : Matcher) (d : Directory)
    (hs : List (Str × Str)) (acc : WalkResult) (bad : SrcFile)
    (helig : fileEligible bad = true)
    (hbad : bad.fsExists = false ∨ bad.readable = false) :
    walkStep m d true hs acc bad
      = Except.error (chars "OSError: cannot read " ++ dirFullPath d bad)
    := by
  unfold walkStep
  simp only []
  have hnone : ((langOfExt ((extOf bad.relPath).map Char.toLower)).isNone)
      = false := by
    unfold fileEligible at helig
    rcases Option.isSome_iff_exists.mp helig with ⟨lang, hl⟩
    rw [hl]; rfl
  rw [hnone, if_neg (by simp : ¬(false = true)), if_pos trivial]
  have hch : compute_file_hash (dirFullPath d bad) bad
      = Except.error (chars "OSError: cannot read " ++ dirFullPath d bad)
      := by
    unfold compute_file_hash
    rw [if_neg ?hcond]
    case hcond =>
      rintro ⟨h1, h2⟩
      rcases hbad with h3 | h3
      · rw [h1] at h3; cases h3
      · rw [h2] at h3; cases h3
  rw [hch]
  rfl

/-- C6 (amended): if the content hash of an eligible file cannot be
computed during an incremental walk (unreadable or vanished file), the
exception aborts the entire walk: the file is neither treated as changed
nor recorded as a per-file error, and no result is returned.  (The
original claim — treat the file as changed and continue — is what fails;
`compute_file_hash` has no error handling.) -/
theorem unreadable_hash_raises (m : Matcher) (d : Directory)
    (hs : List (Str × Str)) (l1 l2 : List SrcFile) (bad : SrcFile)
    (hdir : d.isDir = true)
    (hfiles : d.files = l1 ++ bad :: l2)
    (hgood : ∀ f ∈ l1, GoodStep m d true f)
    (helig : fileEligible bad = true)
    (hbad : bad.fsExists = false ∨ bad.readable = false) :
    extract_from_directory m d true hs
      = Except.error (chars "OSError: cannot read " ++ dirFullPath d bad)
    := by
  unfold extract_from_directory
  rw [if_neg (by rw [hdir]; exact fun hc => by cases hc)]
  rw [hfiles]
  rw [foldlM_append_except (walkStep m d true hs) l1 (bad :: l2) {}]
  rw [walk_foldlM m d true hs l1 hgood {}]
  show List.foldlM (walkStep m d true hs) _ (bad :: l2) = _
  rw [List.foldlM_cons]
  rw [walkStep_unreadable m d hs _ bad helig hbad]
  rfl

/-- One unreadable Python file. -/
def cDir6 : Directory :=
  { path := chars "d"
    files := [{ relPath := chars "u.py", content := []
                readable := false }] }

/-- C6 counterexample: the incremental walk over a directory whose only
file is unreadable raises (returns no walk result at all) instead of
forcing the file through reprocessing with a per-file error. -/
theorem unreadable_walk_counterexample :
    extract_from_directory regexModel cDir6 true []
      = Except.error (chars "OSError: cannot read d/u.py") := by
  rfl

/-- Witness for `unreadable_hash_raises` on the concrete directory. -/
theorem unreadable_hash_raises_witness :
    extract_from_directory regexModel cDir6 true []
      = Except.error (chars "OSError: cannot read "
        ++ dirFullPath cDir6 { relPath := chars "u.py", content := []
                               readable := false }) :=
  unreadable_hash_raises regexModel cDir6 [] [] []
    { relPath := chars "u.py", content := [], readable := false }
    rfl rfl (fun f hf => absurd hf (List.not_mem_nil f)) rfl (Or.inr rfl)

/-- A clean extraction's recorded `file_hash` is the digest of the file's
content (both extractors set it to `md5(content)`). -/
theorem extract_clean_file_hash (m : Matcher) (path : Str) (f : SrcFile)
    (res : ExtractionResult)
    (h : extract_from_file m path f = Except.ok res)
    (herr : res.errors = []) : res.file_hash = md5 f.content := by
  rcases extract_clean_cases m path f res h herr with
    ⟨_, _, _, ⟨_, rfl⟩ | ⟨_, hpy⟩⟩
  · rfl
  · rcases extract_python_ok_elim _ _ _ _ hpy with ⟨ie, _, rfl⟩
    rfl

/-- A clean file's hash-pair contribution: its relative path with the
content digest (when eligible). -/
theorem fileContrib_hashPairs (m : Matcher) (d : Directory)
    (incremental : Bool) (hs : List (Str × Str)) (f : SrcFile)
    (h : CleanStep m d incremental f) :
    (fileContrib m d incremental hs f).hashPairs
      = if fileEligible f = true then [(f.relPath, md5 f.content)]
        else [] := by
  by_cases helig : fileEligible f = true
  · rw [if_pos helig]
    rcases h helig with ⟨hhash, res, hres, herr⟩
    by_cases hskip : incremental = true ∧
        lookupA hs f.relPath = some (md5 f.content)
    · rcases hskip with ⟨hinc, hlk⟩
      subst hinc
      rw [fileContrib_skip m d hs f helig hlk]
    · rw [fileContrib_process m d incremental hs f res helig hskip hres herr]
      rw [extract_clean_file_hash m (dirFullPath d f) f res hres herr]
  · rw [if_neg helig,
      fileContrib_inel m d incremental hs f (Bool.eq_false_iff.mpr helig)]

/-- Whatever a file contributes to the hash table is keyed by its own
relative path. -/
theorem fileContrib_hashPairs_keys (m : Matcher) (d : Directory)
    (incremental : Bool) (hs : List (Str × Str)) (f : SrcFile) :
    ∀ k ∈ ((fileContrib m d incremental hs f).hashPairs.map Prod.fst),
      k = f.relPath := by
  intro k hk
  by_cases helig : fileEligible f = true
  · by_cases hskip : incremental = true ∧
        lookupA hs f.relPath = some (md5 f.content)
    · rcases hskip with ⟨hinc, hlk⟩
      subst hinc
      rw [fileContrib_skip m d hs f helig hlk] at hk
      simpa using hk
    · cases hres : extract_from_file m (dirFullPath d f) f with
      | error e =>
        rw [show fileContrib m d incremental hs f = {} from by
          unfold fileContrib
          rw [if_neg (by simp [helig]), if_neg hskip, hres]] at hk
        simp at hk
      | ok res =>
        by_cases herr : res.errors = []
        · rw [fileContrib_process m d incremental hs f res helig hskip
            hres herr] at hk
          simpa using hk
        · rw [fileContrib_error m d incremental hs f res helig hskip
            hres herr] at hk
          simp at hk
  · rw [fileContrib_inel m d incremental hs f
      (Bool.eq_false_iff.mpr helig)] at hk
    simp at hk

/-- With pairwise-distinct relative paths, the keys of the walk's hash
pairs are duplicate-free. -/
theorem walk_hashPairs_nodup (m : Matcher) (d : Directory)
    (incremental : Bool) (hs : List (Str × Str)) (fs : List SrcFile)
    (hdist : fs.Pairwise (fun a b => a.relPath ≠ b.relPath)) :
    ((fs.flatMap (fun f =>
      (fileContrib m d incremental hs f).hashPairs)).map Prod.fst).Nodup
    := by
  induction fs with
  | nil => simp
  | cons f fs ih =>
    rw [List.pairwise_cons] at hdist
    rw [List.flatMap_cons, List.map_append]
    rw [List.nodup_append]
    refine ⟨?_, ih hdist.2, ?_⟩
    · have hk := fileContrib_hashPairs_keys m d incremental hs f
      cases hp : (fileContrib m d incremental hs f).hashPairs with
      | nil => simp
      | cons pr t =>
        cases t with
        | nil => simp
        | cons pr2 t2 =>
          exfalso
          have h1 := hk pr.1 (by rw [hp]; simp)
          have h2 := hk pr2.1 (by rw [hp]; simp)
          have hlen : ((fileContrib m d incremental hs f).hashPairs).length
              ≤ 1 := by
            by_cases helig : fileEligible f = true
            · by_cases hskip : incremental = true ∧
                  lookupA hs f.relPath = some (md5 f.content)
              · rcases hskip with ⟨hinc, hlk⟩
                subst hinc
                rw [fileContrib_skip m d hs f helig hlk]
                simp
              · cases hres : extract_from_file m (dirFullPath d f) f with
                | error e =>
                  rw [show fileContrib m d incremental hs f = {} from by
                    unfold fileContrib
                    rw [if_neg (by simp [helig]), if_neg hskip, hres]]
                  simp
                | ok res =>
                  by_cases herr : res.errors = []
                  · rw [fileContrib_process m d incremental hs f res helig
                      hskip hres herr]
                    simp
                  · rw [fileContrib_error m d incremental hs f res helig
                      hskip hres herr]
                    simp
            · rw [fileContrib_inel m d incremental hs f
                (Bool.eq_false_iff.mpr helig)]
              simp
          rw [hp] at hlen
          simp at hlen
    · intro k hk1 hk2
      have h1 := fileContrib_hashPairs_keys m d incremental hs f k hk1
      rcases List.mem_map.mp hk2 with ⟨pr, hpr, rfl⟩
      rcases List.mem_flatMap.mp hpr with ⟨g, hg, hprg⟩
      have h2 := fileContrib_hashPairs_keys m d incremental hs g pr.1
        (List.mem_map_of_mem _ hprg)
      rw [h2] at h1
      exact hdist.1 g hg h1.symm

/-- `upsertMany` over fresh, duplicate-free keys is a plain append. -/
theorem upsertMany_append_of_fresh (ps : List (Str × Str)) :
    ∀ (h : List (Str × Str)),
      (∀ pr ∈ ps, ∀ e ∈ h, e.1 ≠ pr.1) →
      ((ps.map Prod.fst).Nodup) →
      upsertMany h ps = h ++ ps := by
  induction ps with
  | nil => intro h _ _; simp [upsertMany]
  | cons pr ps ih =>
    intro h hfresh hnodup
    rw [List.map_cons, List.nodup_cons] at hnodup
    rw [upsertMany, List.foldl_cons]
    rw [show List.foldl (fun h2 pr => upsertA h2 pr.1 pr.2)
      (upsertA h pr.1 pr.2) ps = upsertMany (upsertA h pr.1 pr.2) ps
      from rfl]
    have hup : upsertA h pr.1 pr.2 = h ++ [(pr.1, pr.2)] := by
      unfold upsertA
      rw [if_neg ?hnot]
      case hnot =>
        intro hc
        rw [List.any_eq_true] at hc
        rcases hc with ⟨e, he, heq⟩
        exact hfresh pr (List.mem_cons_self _ _) e he (by simpa using heq)
    rw [hup]
    rw [ih (h ++ [(pr.1, pr.2)]) ?fresh2 hnodup.2]
    · simp
    case fresh2 =>
      intro q hq e he
      rcases List.mem_append.mp he with h1 | h1
      · exact hfresh q (List.mem_cons_of_mem _ hq) e h1
      · rcases List.mem_singleton.mp h1 with rfl
        intro hc
        exact hnodup.1 (hc ▸ List.mem_map_of_mem Prod.fst hq)

/-- Counting the skip contributions of a walk where every file is either
skipped (eligible) or ignored (ineligible). -/
theorem sum_skipped_eq_filter (fs : List SrcFile) (g : SrcFile → Nat)
    (h : ∀ f ∈ fs, g f = if fileEligible f = true then 1 else 0) :
    (fs.map g).sum = (fs.filter (fun f => fileEligible f)).length := by
  induction fs with
  | nil => simp
  | cons f fs ih =>
    rw [List.map_cons, List.sum_cons,
      ih (fun f2 hf2 => h f2 (List.mem_cons_of_mem _ hf2)),
      h f (List.mem_cons_self _ _)]
    by_cases helig : fileEligible f = true
    · rw [if_pos helig, List.filter_cons_of_pos (by simpa using helig)]
      simp [Nat.add_comm]
    · rw [if_neg helig,
        List.filter_cons_of_neg (by simpa using helig)]
      simp

/-- C5: idempotence of incremental sync.  Running
`sync_from_directory(project, d, incremental := true)` twice with no source
changes yields, on the second run, `nodes_added = 0`, zero inserted edges
and no processed files — every file is classified unchanged and skipped —
and the stored node and edge sets are exactly those after the first run. -/
theorem sync_idempotent (m : Matcher) (db0 : DB) (project : Str)
    (d : Directory) (db1 : DB) (r1 : SyncResult)
    (hdir : d.isDir = true)
    (hdist : d.files.Pairwise (fun a b => a.relPath ≠ b.relPath))
    (hclean : ∀ f ∈ d.files, CleanStep m d true f)
    (h1 : sync_from_directory m db0 project d true = Except.ok (db1, r1)) :
    ∃ db2 r2, sync_from_directory m db1 project d true
        = Except.ok (db2, r2) ∧
      db2.nodes = db1.nodes ∧ db2.edges = db1.edges ∧
      r2.nodes_added = 0 ∧ r2.edges_added = 0 ∧
      r2.files_processed = 0 ∧
      r2.files_skipped
        = (d.files.filter (fun f => fileEligible f)).length := by
  have hgood1 : ∀ f ∈ d.files, GoodStep m d true f :=
    fun f hf => cleanStep_goodStep m d true f (hclean f hf)
  have hw1 := walk_char m d true (existingHashes db0 project true) hdir
    hgood1
  have herr1 : (d.files.flatMap (fun f =>
      (fileContrib m d true (existingHashes db0 project true) f).errors))
      = [] :=
    List.flatMap_eq_nil_iff.mpr (fun f hf =>
      fileContrib_errors_nil m d true _ f (hclean f hf))
  rw [sync_ok_of_walk m db0 project d true _ hw1 herr1] at h1
  injection h1 with hpair
  have hdb1eq : db1 = mergedDB project
      (walkOut m d true (existingHashes db0 project true)) db0 :=
    (congrArg Prod.fst hpair).symm
  -- the pairs written by the first walk
  have hPairsEq : upsertMany []
      (d.files.flatMap (fun f =>
        (fileContrib m d true (existingHashes db0 project true)
          f).hashPairs))
      = d.files.flatMap (fun f =>
        (fileContrib m d true (existingHashes db0 project true)
          f).hashPairs) := by
    rw [upsertMany_append_of_fresh _ []
      (fun pr _ e he => absurd he (List.not_mem_nil e))
      (walk_hashPairs_nodup m d true _ d.files hdist)]
    rw [List.nil_append]
  -- every eligible file's current hash is stored after run 1
  have hlk2 : ∀ f ∈ d.files, fileEligible f = true →
      lookupA (existingHashes db1 project true) f.relPath
        = some (md5 f.content) := by
    intro f hf helig
    rw [hdb1eq, lookupA_existingHashes]
    simp only [mergedDB, walkOut]
    rw [hPairsEq]
    refine mergeHashes_rowHash_mem project _ _ _ db0.hashes f.relPath
      (md5 f.content) ?_ (walk_hashPairs_nodup m d true _ d.files hdist)
    refine List.mem_flatMap.mpr ⟨f, hf, ?_⟩
    rw [fileContrib_hashPairs m d true _ f (hclean f hf), if_pos helig]
    exact List.mem_singleton.mpr rfl
  -- run 2: every eligible file is classified unchanged and skipped
  have hw2 := walk_char m d true (existingHashes db1 project true) hdir
    hgood1
  have hcontrib2 : ∀ f ∈ d.files,
      fileContrib m d true (existingHashes db1 project true) f
        = if fileEligible f = true then
            ({ skipped := 1, hashPairs := [(f.relPath, md5 f.content)] }
              : Contribution)
          else {} := by
    intro f hf
    by_cases helig : fileEligible f = true
    · rw [if_pos helig, fileContrib_skip m d _ f helig (hlk2 f hf helig)]
    · rw [if_neg helig,
        fileContrib_inel m d true _ f (Bool.eq_false_iff.mpr helig)]
  have hn2 : (walkOut m d true (existingHashes db1 project true)).nodes
      = [] := by
    refine List.flatMap_eq_nil_iff.mpr (fun f hf => ?_)
    rw [hcontrib2 f hf]
    split <;> rfl
  have hedges2 : (walkOut m d true (existingHashes db1 project true)).edges
      = [] := by
    refine List.flatMap_eq_nil_iff.mpr (fun f hf => ?_)
    rw [hcontrib2 f hf]
    split <;> rfl
  have herr2 : (walkOut m d true (existingHashes db1 project true)).errors
      = [] :=
    List.flatMap_eq_nil_iff.mpr (fun f hf =>
      fileContrib_errors_nil m d true _ f (hclean f hf))
  have hproc2 : (walkOut m d true
      (existingHashes db1 project true)).files_processed = 0 := by
    refine List.sum_eq_zero ?_
    intro n hn
    rcases List.mem_map.mp hn with ⟨f, hf, rfl⟩
    rw [hcontrib2 f hf]
    split <;> rfl
  have hskip2 : (walkOut m d true
      (existingHashes db1 project true)).files_skipped
      = (d.files.filter (fun f => fileEligible f)).length := by
    refine sum_skipped_eq_filter d.files _ ?_
    intro f hf
    rw [hcontrib2 f hf]
    split <;> rfl
  have hpfp2 : processedFilePaths
      (walkOut m d true (existingHashes db1 project true)) = [] := by
    unfold processedFilePaths
    rw [hn2]
    rfl
  refine ⟨_, _, sync_ok_of_walk m db1 project d true _ hw2 herr2,
    ?_, ?_, ?_, ?_, ?_, ?_⟩
  · simp only [mergedDB]
    rw [hn2]
    rfl
  · simp only [mergedDB]
    rw [hedges2, hpfp2]
    rfl
  · simp only [mergedRes]
    rw [hn2]
    rfl
  · simp only [mergedRes]
    rw [hedges2]
    rfl
  · simp only [mergedRes]
    exact hproc2
  · simp only [mergedRes]
    exact hskip2

/-- The store after the first sync of `cDir1` into an empty store. -/
def cDb5 : DB :=
  { nodes := [{ id := chars "file.d/a.py", project := chars "pr"
                kind := chars "file", name := chars "a.py"
                file_path := chars "d/a.py", line_start := 0, line_end := 0
                signature := none, language := some (chars "python")
                visibility := none, hash := some (chars "import os") }]
    edges := [{ project := chars "pr", from_id := chars "file.d/a.py"
                to_id := chars "module.os", kind := chars "imports"
                line_number := some 1, confidence := 1 }]
    hashes := [{ project := chars "pr", file_path := chars "a.py"
                 hash := chars "import os", node_count := 1
                 edge_count := 1 }] }

/-- The result dict of that first sync. -/
def cRes5 : SyncResult :=
  { nodes_added := 1, nodes_updated := 0, edges_added := 1
    files_processed := 1, files_skipped := 0, errors := [] }

/-- Witness for `sync_idempotent` on the concrete one-file project: the
second incremental sync adds nothing, skips the file, and leaves the node
and edge tables of `cDb5` unchanged. -/
theorem sync_idempotent_witness :
    ∃ db2 r2, sync_from_directory regexModel cDb5 (chars "pr") cDir1 true
        = Except.ok (db2, r2) ∧
      db2.nodes = cDb5.nodes ∧ db2.edges = cDb5.edges ∧
      r2.nodes_added = 0 ∧ r2.edges_added = 0 ∧
      r2.files_processed = 0 ∧
      r2.files_skipped
        = (cDir1.files.filter (fun f => fileEligible f)).length :=
  sync_idempotent regexModel {} (chars "pr") cDir1 cDb5 cRes5 (by rfl)
    (by unfold cDir1; exact List.pairwise_singleton _ _)
    (fun f hf => by
      rcases List.mem_singleton.mp hf with rfl
      exact fun _ => ⟨fun _ => ⟨rfl, rfl⟩, ⟨_, rfl, rfl⟩⟩)
    (by rfl)

/-- Every node id built by the TypeScript extractor is a `make_node_id` of
the extracted path. -/
theorem extract_typescript_node_id (m : Matcher) (c p : Str) :
    ∀ n ∈ (extract_typescript m c p).nodes,
      ∃ k nm, n.id = make_node_id k p nm := by
  intro n hn
  unfold extract_typescript at hn
  simp only [] at hn
  rcases List.mem_cons.mp hn with rfl | hn2
  · exact ⟨chars "file", none, rfl⟩
  · simp only [List.mem_append] at hn2
    rcases hn2 with (((h | h) | h) | h) | h
    · rcases List.mem_map.mp h with ⟨x, hx, rfl⟩
      exact ⟨chars "function", some x.2, rfl⟩
    · rcases List.mem_map.mp h with ⟨x, hx, rfl⟩
      exact ⟨chars "function", some x.2, rfl⟩
    · rcases List.mem_map.mp h with ⟨x, hx, rfl⟩
      exact ⟨chars "class", some x.2.1, rfl⟩
    · rcases List.mem_map.mp h with ⟨x, hx, rfl⟩
      exact ⟨chars "interface", some x.2.1, rfl⟩
    · rcases List.mem_map.mp h with ⟨x, hx, rfl⟩
      exact ⟨chars "type", some x.2, rfl⟩

/-- Every node id built by the Python extractor is a `make_node_id` of the
extracted path. -/
theorem extract_python_node_id (m : Matcher) (c p : Str)
    (ie : List CodeEdge) :
    ∀ n ∈ (extract_python_pure m c p ie).nodes,
      ∃ k nm, n.id = make_node_id k p nm := by
  intro n hn
  unfold extract_python_pure at hn
  simp only [] at hn
  rcases List.mem_cons.mp hn with rfl | hn2
  · exact ⟨chars "file", none, rfl⟩
  · simp only [List.mem_append] at hn2
    rcases hn2 with (h | h) | h
    · rcases List.mem_map.mp h with ⟨x, hx, rfl⟩
      exact ⟨chars "function", some x.2, rfl⟩
    · rcases List.mem_map.mp h with ⟨x, hx, rfl⟩
      exact ⟨chars "class", some x.2.1, rfl⟩
    · rcases List.mem_map.mp h with ⟨x, hx, rfl⟩
      exact ⟨chars "constant", some x.2, rfl⟩

/-- Every node of a clean extraction has an id of the form
`make_node_id kind path name`. -/
theorem extract_clean_node_id (m : Matcher) (path : Str) (f : SrcFile)
    (res : ExtractionResult)
    (h : extract_from_file m path f = Except.ok res)
    (herr : res.errors = []) :
    ∀ n ∈ res.nodes, ∃ k nm, n.id = make_node_id k path nm := by
  rcases extract_clean_cases m path f res h herr with
    ⟨_, _, _, ⟨_, rfl⟩ | ⟨_, hpy⟩⟩
  · exact extract_typescript_node_id m f.content path
  · rcases extract_python_ok_elim _ _ _ _ hpy with ⟨ie, _, rfl⟩
    exact extract_python_node_id m f.content path ie

/-- A clean extraction's only `file`-kind node carries the extracted
path. -/
theorem extract_clean_processed (m : Matcher) (path : Str) (f : SrcFile)
    (res : ExtractionResult)
    (h : extract_from_file m path f = Except.ok res)
    (herr : res.errors = []) :
    (res.nodes.filter (fun n => n.kind = chars "file")).map
      (fun n => n.file_path) = [path] := by
  rcases extract_clean_cases m path f res h herr with
    ⟨_, _, _, ⟨_, rfl⟩ | ⟨_, hpy⟩⟩
  · exact extract_typescript_processed m f.content path
  · rcases extract_python_ok_elim _ _ _ _ hpy with ⟨ie, _, rfl⟩
    exact extract_python_processed m f.content path ie

/-- In a list of files with pairwise-distinct relative paths, a member
sharing a member's relative path is that member. -/
theorem eq_of_mem_pairwise_relPath (f0 f : SrcFile) :
    ∀ (fs : List SrcFile),
      fs.Pairwise (fun a b => a.relPath ≠ b.relPath) →
      f0 ∈ fs → f ∈ fs → f.relPath = f0.relPath → f = f0 := by
  intro fs
  induction fs with
  | nil => intro _ h0; cases h0
  | cons a t ih =>
    intro hdist h0 hf heq
    rw [List.pairwise_cons] at hdist
    rcases List.mem_cons.mp h0 with rfl | h0t
    · rcases List.mem_cons.mp hf with rfl | hft
      · rfl
      · exact absurd heq.symm (hdist.1 f hft)
    · rcases List.mem_cons.mp hf with rfl | hft
      · exact absurd heq (hdist.1 f0 h0t)
      · exact ih hdist.2 h0t hft heq

/-- Summing a per-file count that is `1` on one distinguished file and `0`
on every file with a different relative path. -/
theorem sum_map_one (fs : List SrcFile) (g : SrcFile → Nat) (f0 : SrcFile)
    (hmem : f0 ∈ fs)
    (hdist : fs.Pairwise (fun a b => a.relPath ≠ b.relPath))
    (h0 : g f0 = 1)
    (hother : ∀ f ∈ fs, f.relPath ≠ f0.relPath → g f = 0) :
    (fs.map g).sum = 1 := by
  induction fs with
  | nil => cases hmem
  | cons a t ih =>
    rw [List.pairwise_cons] at hdist
    rw [List.map_cons, List.sum_cons]
    rcases List.mem_cons.mp hmem with rfl | hmemt
    · rw [h0]
      have ht0 : (t.map g).sum = 0 := by
        refine List.sum_eq_zero ?_
        intro n hn
        rcases List.mem_map.mp hn with ⟨f, hf, rfl⟩
        exact hother f (List.mem_cons_of_mem _ hf)
          (fun he => hdist.1 f hf he.symm)
      rw [ht0]
    · rw [hother a (List.mem_cons_self _ _) (hdist.1 f0 hmemt)]
      rw [ih hmemt hdist.2
        (fun f hf hne => hother f (List.mem_cons_of_mem _ hf) hne)]

/-- Filter-map over a per-file flatMap in which only one distinguished file
contributes. -/
theorem map_filter_flatMap_single (fs : List SrcFile)
    (g : SrcFile → List CodeNode) (q : CodeNode → Bool)
    (h : CodeNode → Str) (f0 : SrcFile) (out : List Str)
    (hmem : f0 ∈ fs)
    (hdist : fs.Pairwise (fun a b => a.relPath ≠ b.relPath))
    (h0 : ((g f0).filter q).map h = out)
    (hother : ∀ f ∈ fs, f.relPath ≠ f0.relPath → g f = []) :
    ((fs.flatMap g).filter q).map h = out := by
  induction fs with
  | nil => cases hmem
  | cons a t ih =>
    rw [List.pairwise_cons] at hdist
    rw [List.flatMap_cons, List.filter_append, List.map_append]
    rcases List.mem_cons.mp hmem with rfl | hmemt
    · rw [h0]
      have ht0 : t.flatMap g = [] :=
        List.flatMap_eq_nil_iff.mpr (fun f hf =>
          hother f (List.mem_cons_of_mem _ hf)
            (fun he => hdist.1 f hf he.symm))
      rw [ht0]
      simp
    · rw [hother a (List.mem_cons_self _ _) (hdist.1 f0 hmemt)]
      rw [ih hmemt hdist.2
        (fun f hf hne => hother f (List.mem_cons_of_mem _ hf) hne)]
      rfl

/-- The changed file of the C4 scenario: `d/a_c.py`, whose stored hash is
stale. -/
def cF4 : SrcFile :=
  { relPath := chars "a_c.py", content := chars "import os" }

/-- The unchanged file of the C4 scenario: `d/abc.py`, whose stored hash
matches its content. -/
def cF4b : SrcFile :=
  { relPath := chars "abc.py", content := chars "import sys" }

/-- The C4 directory: `a_c.py` modified, `abc.py` untouched. -/
def cDir4 : Directory :=
  { path := chars "d", files := [cF4, cF4b] }

/-- A stored edge owned by the unchanged file `d/abc.py`. -/
def cE4 : EdgeRow :=
  { project := chars "pr", from_id := chars "file.d/abc.py"
    to_id := chars "module.sys", kind := chars "imports"
    line_number := some 1, confidence := 1 }

/-- A stored edge owned by a file outside the deletion pattern's reach. -/
def cE4b : EdgeRow :=
  { project := chars "pr", from_id := chars "file.d/b.py"
    to_id := chars "module.json", kind := chars "imports"
    line_number := some 1, confidence := 1 }

/-- A stored node owned by a file other than the changed one. -/
def cN4 : NodeRow :=
  { id := chars "file.d/b.py", project := chars "pr", kind := chars "file"
    name := chars "b.py", file_path := chars "d/b.py", line_start := 0
    line_end := 0, signature := none, language := some (chars "python")
    visibility := none, hash := some (chars "h") }

/-- The prior store of the C4 scenario: both files' hash rows (`a_c.py`
stale, `abc.py` current) plus the three rows above. -/
def cDb4 : DB :=
  { nodes := [cN4]
    edges := [cE4, cE4b]
    hashes := [{ project := chars "pr", file_path := chars "a_c.py"
                 hash := chars "old", node_count := 0, edge_count := 0 },
               { project := chars "pr", file_path := chars "abc.py"
                 hash := chars "import sys", node_count := 0
                 edge_count := 0 }] }

/-- C4 counterexample: re-running incremental sync after modifying only
`a_c.py` reports `files_processed = 1` (only `a_c.py` is reprocessed), yet
the edge `cE4` owned by the unchanged, skipped file `abc.py` is deleted:
the `DELETE .. LIKE "%.d/a_c.py%"` pattern leaves the `_` in the file name
unescaped, and the SQL `_` wildcard makes it match `file.d/abc.py`. -/
theorem incremental_like_counterexample :
    (sync_from_directory regexModel cDb4 (chars "pr") cDir4 true).map
      (fun x => (x.2.files_processed, decide (cE4 ∈ x.1.edges)))
      = Except.ok (1, false) := by
  rfl

/-- C4 (amended): incremental frame property, with the LIKE-collision
proviso the source's unescaped `DELETE .. LIKE "%.{file_path}%"` pattern
forces.  If exactly one file of the walked directory is changed (every
other eligible file's stored hash matches its content), the sync reports
`files_processed = 1`; a stored edge survives provided its
`(project, from_id)` does not LIKE-match the changed file's deletion
pattern — which, per the counterexample above, is strictly weaker
than being owned by another file — and a stored node survives provided its
`(project, id)` is not a `make_node_id` of the changed file's path. -/
theorem incremental_frame (m : Matcher) (db : DB) (project : Str)
    (d : Directory) (f0 : SrcFile) (row : EdgeRow) (node : NodeRow)
    (hdir : d.isDir = true)
    (hdist : d.files.Pairwise (fun a b => a.relPath ≠ b.relPath))
    (hclean : ∀ f ∈ d.files, CleanStep m d true f)
    (hf0 : f0 ∈ d.files) (helig0 : fileEligible f0 = true)
    (hchg : lookupA (existingHashes db project true) f0.relPath
      ≠ some (md5 f0.content))
    (hunch : ∀ f ∈ d.files, f.relPath ≠ f0.relPath →
      fileEligible f = true →
      lookupA (existingHashes db project true) f.relPath
        = some (md5 f.content))
    (hrow : row ∈ db.edges)
    (hnocol : ¬(row.project = project ∧
      likeMatch (deletePattern (dirFullPath d f0)) row.from_id = true))
    (hnode : node ∈ db.nodes)
    (hfresh : ∀ (k : Str) (nm : Option Str),
      ¬(node.id = make_node_id k (dirFullPath d f0) nm ∧
        node.project = project)) :
    ∃ db2 res, sync_from_directory m db project d true
        = Except.ok (db2, res) ∧
      res.files_processed = 1 ∧ row ∈ db2.edges ∧ node ∈ db2.nodes := by
  have hgood : ∀ f ∈ d.files, GoodStep m d true f :=
    fun f hf => cleanStep_goodStep m d true f (hclean f hf)
  have hw := walk_char m d true (existingHashes db project true) hdir hgood
  have herr : (walkOut m d true (existingHashes db project true)).errors
      = [] :=
    List.flatMap_eq_nil_iff.mpr (fun f hf =>
      fileContrib_errors_nil m d true _ f (hclean f hf))
  obtain ⟨res0, hres0, herr0⟩ := (hclean f0 hf0 helig0).2
  have hc0 : fileContrib m d true (existingHashes db project true) f0
      = { nodes := res0.nodes, edges := res0.edges, processed := 1
          hashPairs := [(f0.relPath, res0.file_hash)] } :=
    fileContrib_process m d true _ f0 res0 helig0
      (fun hc => hchg hc.2) hres0 herr0
  have hother : ∀ f ∈ d.files, f.relPath ≠ f0.relPath →
      (fileContrib m d true (existingHashes db project true) f).nodes = []
      ∧ (fileContrib m d true
          (existingHashes db project true) f).processed = 0 := by
    intro f hf hne
    by_cases helig : fileEligible f = true
    · rw [fileContrib_skip m d _ f helig (hunch f hf hne helig)]
      exact ⟨rfl, rfl⟩
    · rw [fileContrib_inel m d true _ f (Bool.eq_false_iff.mpr helig)]
      exact ⟨rfl, rfl⟩
  have hpfp : processedFilePaths
      (walkOut m d true (existingHashes db project true))
      = [dirFullPath d f0] := by
    refine map_filter_flatMap_single d.files _ _ _ f0 _ hf0 hdist ?_
      (fun f hf hne => (hother f hf hne).1)
    rw [hc0]
    exact extract_clean_processed m (dirFullPath d f0) f0 res0 hres0 herr0
  have hfreshR : ∀ n ∈ (walkOut m d true
      (existingHashes db project true)).nodes,
      ¬(node.id = n.id ∧ node.project = project) := by
    intro n hn
    rcases List.mem_flatMap.mp hn with ⟨f, hf, hnf⟩
    by_cases hrel : f.relPath = f0.relPath
    · have hfe : f = f0 :=
        eq_of_mem_pairwise_relPath f0 f d.files hdist hf0 hf hrel
      subst hfe
      rw [hc0] at hnf
      rcases extract_clean_node_id m (dirFullPath d f) f res0 hres0 herr0 n
        (by exact hnf) with ⟨k, nm, hnid⟩
      intro hcon
      exact hfresh k nm ⟨hcon.1.trans hnid, hcon.2⟩
    · rw [(hother f hf hrel).1] at hnf
      cases hnf
  have hproc : (walkOut m d true
      (existingHashes db project true)).files_processed = 1 := by
    refine sum_map_one d.files _ f0 hf0 hdist ?_
      (fun f hf hne => (hother f hf hne).2)
    rw [hc0]
  refine ⟨_, _, sync_ok_of_walk m db project d true _ hw herr,
    ?_, ?_, ?_⟩
  · simp only [mergedRes]
    exact hproc
  · simp only [mergedDB]
    refine mergeEdges_preserve project _ _ row ?_
    refine (mem_deleteEdgesForFiles project _ db.edges row).mpr
      ⟨hrow, ?_⟩
    intro fp hfp
    rw [hpfp] at hfp
    rcases List.mem_singleton.mp hfp with rfl
    exact hnocol
  · simp only [mergedDB]
    exact mergeNodes_preserve project _ db.nodes node hnode
      (fun n hn => hfreshR n hn)

/-- Witness for `incremental_frame` on the C4 scenario: only `a_c.py` is
processed, and the edge `cE4b` and node `cN4` — outside the deletion
pattern and the changed file's node-id space — survive. -/
theorem incremental_frame_witness :
    ∃ db2 res, sync_from_directory regexModel cDb4 (chars "pr") cDir4 true
        = Except.ok (db2, res) ∧
      res.files_processed = 1 ∧ cE4b ∈ db2.edges ∧ cN4 ∈ db2.nodes :=
  incremental_frame regexModel cDb4 (chars "pr") cDir4 cF4 cE4b cN4
    rfl
    (by refine List.Pairwise.cons ?_ (List.pairwise_singleton _ _)
        intro b hb
        rcases List.mem_singleton.mp hb with rfl
        decide)
    (fun f hf => by
      rcases List.mem_cons.mp hf with rfl | hf2
      · exact fun _ => ⟨fun _ => ⟨rfl, rfl⟩, ⟨_, rfl, rfl⟩⟩
      · rcases List.mem_singleton.mp hf2 with rfl
        exact fun _ => ⟨fun _ => ⟨rfl, rfl⟩, ⟨_, rfl, rfl⟩⟩)
    (List.mem_cons_self _ _)
    (by decide)
    (by decide)
    (by decide)
    (by decide)
    (by decide)
    (by decide)
    (fun k nm hcon => by
      have h2 := make_node_id_matches k (dirFullPath cDir4 cF4) nm
      rw [← hcon.1] at h2
      exact absurd h2 (by decide))

/-- C7: determinism of extraction.  A file with the same full path and the
same content, embedded in two arbitrary call sequences — different
directories, different co-resident files, different prior hash maps — is
extracted to one and the same result: both `extract_from_file` calls
return the identical `ExtractionResult` (in particular byte-identical node
ids), and both walks' per-file contributions carry exactly its nodes and
edges.  Extraction is a pure function of the content and path. -/
theorem extraction_deterministic (m : Matcher) (d1 d2 : Directory)
    (f1 f2 : SrcFile) (hs1 hs2 : List (Str × Str))
    (hp : dirFullPath d1 f1 = dirFullPath d2 f2)
    (hc : f1.content = f2.content)
    (hclean1 : CleanStep m d1 false f1)
    (hclean2 : CleanStep m d2 false f2)
    (helig1 : fileEligible f1 = true) (helig2 : fileEligible f2 = true) :
    ∃ res, extract_from_file m (dirFullPath d1 f1) f1 = Except.ok res ∧
      extract_from_file m (dirFullPath d2 f2) f2 = Except.ok res ∧
      (fileContrib m d1 false hs1 f1).nodes = res.nodes ∧
      (fileContrib m d2 false hs2 f2).nodes = res.nodes ∧
      (fileContrib m d1 false hs1 f1).edges = res.edges ∧
      (fileContrib m d2 false hs2 f2).edges = res.edges := by
  obtain ⟨res1, hres1, herr1⟩ := (hclean1 helig1).2
  obtain ⟨res2, hres2, herr2⟩ := (hclean2 helig2).2
  have h12 : res2 = res1 := by
    rcases extract_clean_cases m _ f1 res1 hres1 herr1 with
      ⟨_, _, _, hcase1⟩
    rcases extract_clean_cases m _ f2 res2 hres2 herr2 with
      ⟨_, _, _, hcase2⟩
    rcases hcase1 with ⟨hl1, he1⟩ | ⟨hl1, he1⟩ <;>
      rcases hcase2 with ⟨hl2, he2⟩ | ⟨hl2, he2⟩
    · rw [he1, he2, ← hc, ← hp]
    · rw [← hp] at hl2
      rcases hl1 with h | h
      · exact absurd (h.symm.trans hl2) (by decide)
      · exact absurd (h.symm.trans hl2) (by decide)
    · rw [← hp] at hl2
      rcases hl2 with h | h
      · exact absurd (hl1.symm.trans h) (by decide)
      · exact absurd (hl1.symm.trans h) (by decide)
    · rw [← hp, ← hc] at he2
      exact (Except.ok.inj (he1.symm.trans he2)).symm
  refine ⟨res1, hres1, h12 ▸ hres2, ?_, ?_, ?_, ?_⟩
  · rw [fileContrib_process m d1 false hs1 f1 res1 helig1
      (fun hcon => nomatch hcon.1) hres1 herr1]
  · rw [fileContrib_process m d2 false hs2 f2 res2 helig2
      (fun hcon => nomatch hcon.1) hres2 herr2, h12]
  · rw [fileContrib_process m d1 false hs1 f1 res1 helig1
      (fun hcon => nomatch hcon.1) hres1 herr1]
  · rw [fileContrib_process m d2 false hs2 f2 res2 helig2
      (fun hcon => nomatch hcon.1) hres2 herr2, h12]

/-- The second call sequence of the C7 witness: the same file `d/a.py`
behind another co-resident file, walked in a different order. -/
def cDir7 : Directory :=
  { path := chars "d"
    files := [{ relPath := chars "b.py", content := chars "import sys" },
              { relPath := chars "a.py", content := chars "import os" }] }

/-- Witness for `extraction_deterministic`: `d/a.py` extracted during the
walks of `cDir1` and of `cDir7` (different co-resident files, different
prior hash maps) yields one identical result. -/
theorem extraction_deterministic_witness :
    ∃ res, extract_from_file regexModel
        (dirFullPath cDir1 { relPath := chars "a.py",
                             content := chars "import os" })
        { relPath := chars "a.py", content := chars "import os" }
        = Except.ok res ∧
      extract_from_file regexModel
        (dirFullPath cDir7 { relPath := chars "a.py",
                             content := chars "import os" })
        { relPath := chars "a.py", content := chars "import os" }
        = Except.ok res ∧
      (fileContrib regexModel cDir1 false []
        { relPath := chars "a.py", content := chars "import os" }).nodes
        = res.nodes ∧
      (fileContrib regexModel cDir7 false
        [(chars "a.py", chars "zzz")]
        { relPath := chars "a.py", content := chars "import os" }).nodes
        = res.nodes ∧
      (fileContrib regexModel cDir1 false []
        { relPath := chars "a.py", content := chars "import os" }).edges
        = res.edges ∧
      (fileContrib regexModel cDir7 false
        [(chars "a.py", chars "zzz")]
        { relPath := chars "a.py", content := chars "import os" }).edges
        = res.edges :=
  extraction_deterministic regexModel cDir1 cDir7
    { relPath := chars "a.py", content := chars "import os" }
    { relPath := chars "a.py", content := chars "import os" }
    [] [(chars "a.py", chars "zzz")] rfl rfl
    (by exact fun _ => ⟨(fun h => nomatch h), ⟨_, rfl, rfl⟩⟩)
    (by exact fun _ => ⟨(fun h => nomatch h), ⟨_, rfl, rfl⟩⟩)
    rfl rfl

/-- The C8 witness file: `d/c.py` declaring `class A(B):`. -/
def cF8 : SrcFile :=
  { relPath := chars "c.py", content := chars "class A(B):" }

/-- The extraction of `cF8`: a `defines` edge with confidence 1 and an
`extends` edge (from the inheritance clause `(B)`) with confidence 0.8. -/
def cRes8 : ExtractionResult :=
  { nodes := [{ id := chars "file.d/c.py", kind := chars "file"
                name := chars "c.py", file_path := chars "d/c.py"
                line_start := 0, line_end := 0, signature := none
                language := some (chars "python"), visibility := none
                hash := some (chars "class A(B):") },
              { id := chars "class.d/c.py:A", kind := chars "class"
                name := chars "A", file_path := chars "d/c.py"
                line_start := 1, line_end := 1, signature := none
                language := some (chars "python"), visibility := none
                hash := none }]
    edges := [{ from_id := chars "file.d/c.py"
                to_id := chars "class.d/c.py:A", kind := chars "defines"
                line_number := none, confidence := 1 },
              { from_id := chars "class.d/c.py:A"
                to_id := chars "class.B", kind := chars "extends"
                line_number := some 1, confidence := 8/10 }]
    file_path := chars "d/c.py"
    file_hash := chars "class A(B):"
    language := chars "python"
    errors := [] }

/-- Witness for `edge_confidence_values`: the extraction of `d/c.py` does
produce an `extends` edge, its confidence is 0.8, and every edge of the
result obeys the confidence discipline. -/
theorem edge_confidence_values_witness :
    (∃ e ∈ cRes8.edges,
      e.kind = chars "extends" ∧ e.confidence = 8/10) ∧
    ∀ e ∈ cRes8.edges,
      ((e.kind = chars "extends" ∨ e.kind = chars "implements") →
        e.confidence = 8/10) ∧
      (e.kind = chars "defines" → e.confidence = 1) :=
  ⟨⟨_, List.mem_cons_of_mem _ (List.mem_cons_self _ _), rfl, rfl⟩,
   edge_confidence_values regexModel (chars "d/c.py") cF8 cRes8 (by rfl)⟩

/-- The walk result of `cDir7` in full-rebuild mode. -/
def cR10 : WalkResult :=
  { nodes := [{ id := chars "file.d/b.py", kind := chars "file"
                name := chars "b.py", file_path := chars "d/b.py"
                line_start := 0, line_end := 0, signature := none
                language := some (chars "python"), visibility := none
                hash := some (chars "import sys") },
              { id := chars "file.d/a.py", kind := chars "file"
                name := chars "a.py", file_path := chars "d/a.py"
                line_start := 0, line_end := 0, signature := none
                language := some (chars "python"), visibility := none
                hash := some (chars "import os") }]
    edges := [{ from_id := chars "file.d/b.py"
                to_id := chars "module.sys", kind := chars "imports"
                line_number := some 1, confidence := 1 },
              { from_id := chars "file.d/a.py"
                to_id := chars "module.os", kind := chars "imports"
                line_number := some 1, confidence := 1 }]
    files_processed := 2
    files_skipped := 0
    errors := []
    file_hashes := [(chars "b.py", chars "import sys"),
                    (chars "a.py", chars "import os")] }

/-- Witness for `sync_counter_semantics`: syncing `cDir7` into an empty
store reports `nodes_updated = 0` and `nodes_added` equal to the number of
extracted nodes. -/
theorem sync_counter_semantics_witness :
    ∃ db2 res, sync_from_directory regexModel {} (chars "pr") cDir7 false
        = Except.ok (db2, res) ∧
      res.nodes_updated = 0 ∧ res.nodes_added = cR10.nodes.length :=
  sync_counter_semantics regexModel {} (chars "pr") cDir7 false cR10
    (by rfl) rfl
